import Mathlib

/-
Verification of the easy-github ingestion core (src/backend/github.py):
file-tree construction over a walked workspace, depth-limited projection,
per-file import extraction, internal/external dependency classification,
and repository-locator parsing.

Strings are modelled as Lean `String` values (wrapping `List Char`); the
Python string operations used by the source (`split`, `strip`, `replace`,
`startswith`, `in`, `os.path.basename`, `os.path.splitext`) are embedded
below as executable functions on character lists.
-/

namespace EasyGithub

/-! ### Python string primitives -/

/-- Whitespace test used by Python's unqualified `str.split()` and `str.strip()`
(restricted to the ASCII whitespace characters that can occur in the
program's inputs, which are single lines already split on newlines). -/
def pyIsSpace (c : Char) : Bool :=
  c = ' ' || c = '\t' || c = '\n' || c = '\r'

/-- Helper for `pySplitChar`: accumulates the current token (reversed). -/
def splitChAux (sep : Char) : List Char → List Char → List (List Char)
  | [], acc => [acc.reverse]
  | c :: rest, acc =>
    if c = sep then acc.reverse :: splitChAux sep rest []
    else splitChAux sep rest (c :: acc)

/-- Python `s.split(sep)` for a single-character separator: keeps empty
tokens, always returns at least one token. -/
def pySplitChar (sep : Char) (l : List Char) : List (List Char) :=
  splitChAux sep l []

/-- Helper for `pySplitWs`: accumulates the current token (reversed). -/
def splitWsAux : List Char → List Char → List (List Char)
  | [], acc => if acc.isEmpty then [] else [acc.reverse]
  | c :: rest, acc =>
    if pyIsSpace c then
      if acc.isEmpty then splitWsAux rest [] else acc.reverse :: splitWsAux rest []
    else splitWsAux rest (c :: acc)

/-- Python `s.split()` (no argument): splits on whitespace runs and drops
empty tokens. -/
def pySplitWs (l : List Char) : List (List Char) :=
  splitWsAux l []

/-- Python `s.strip(c)` for a single-character argument: removes leading and
trailing occurrences of `c`. -/
def pyStripChar (c : Char) (l : List Char) : List Char :=
  ((l.dropWhile (fun x => x = c)).reverse.dropWhile (fun x => x = c)).reverse

/-- Python `s.strip()` (no argument): removes leading and trailing whitespace. -/
def pyStripWs (l : List Char) : List Char :=
  ((l.dropWhile pyIsSpace).reverse.dropWhile pyIsSpace).reverse

/-- Python `pat in s`: substring containment. -/
def infixB (pat : List Char) : List Char → Bool
  | [] => pat.isEmpty
  | c :: rest => pat.isPrefixOf (c :: rest) || infixB pat rest

/-- Fuelled scanner for `pyReplaceDel`; the fuel only makes the recursion
structural and is always at least the length of the scanned list, so the
`0, s` branch is never taken in `pyReplaceDel`. -/
def pyReplaceDelF (pat : List Char) : Nat → List Char → List Char
  | _, [] => []
  | 0, s => s
  | fuel + 1, c :: rest =>
    if pat.isPrefixOf (c :: rest) && decide (1 ≤ pat.length) then
      pyReplaceDelF pat fuel (rest.drop (pat.length - 1))
    else
      c :: pyReplaceDelF pat fuel rest

/-- Python `s.replace(pat, "")` for a nonempty `pat`: deletes the leftmost
occurrences of `pat`, scanning left to right without overlap.  (The source
only ever calls `replace` with the nonempty pattern `".git"`.) -/
def pyReplaceDel (pat s : List Char) : List Char :=
  pyReplaceDelF pat s.length s

/-- `os.path.basename`: the part of a path after the last `/`. -/
def pyBasename (p : List Char) : List Char :=
  (pySplitChar '/' p).getLastD []

/-- The extension part of `os.path.splitext(p)`: the suffix of the basename
starting at its last dot, where leading dots of the basename do not begin
an extension. -/
def splitextExt (p : List Char) : List Char :=
  let b := pyBasename p
  let lead := b.takeWhile (fun c => c = '.')
  let core := b.drop lead.length
  let parts := pySplitChar '.' core
  if parts.length ≤ 1 then [] else '.' :: parts.getLastD []

/-- The root part of `os.path.splitext(p)`: everything before the extension. -/
def splitextRoot (p : List Char) : List Char :=
  p.take (p.length - (splitextExt p).length)

/-- Lower-case a character list (Python `str.lower`, ASCII range). -/
def pyLower (l : List Char) : List Char :=
  l.map Char.toLower

/-- Drop a leading `pre` from `l` when present (used to compute
`os.path.relpath(p, root)` for the paths produced by the walk, which are
all of the form `root/...`). -/
def dropPre (pre l : List Char) : List Char :=
  if pre.isPrefixOf l then l.drop pre.length else l

/-- Python `name.startswith('.')`: the hidden-file marker test. -/
def liHidden (n : String) : Bool :=
  match n.data with
  | [] => false
  | c :: _ => c = '.'

/-! ### Data model -/

/-- `FileNode` from src/backend/github.py: one filesystem entry.
`children` is `none` on files and a list on directories (mirroring the
Python `None` / list distinction); `content` and `language` are optional
exactly as in the dataclass defaults. -/
inductive FileNode where
  | mk (path : String) (is_dir : Bool) (children : Option (List FileNode))
       (content : Option String) (language : Option String)

def FileNode.path : FileNode → String
  | .mk p _ _ _ _ => p

def FileNode.is_dir : FileNode → Bool
  | .mk _ d _ _ _ => d

def FileNode.children : FileNode → Option (List FileNode)
  | .mk _ _ ch _ _ => ch

def FileNode.content : FileNode → Option String
  | .mk _ _ _ c _ => c

def FileNode.language : FileNode → Option String
  | .mk _ _ _ _ l => l

/-- A filesystem snapshot of the cloned workspace: what `os.walk` and the
file reads observe.  A file's `content` of `none` models an `f.read()`
call that raises inside the `try` of `_build_file_tree` (the `except`
branch substitutes the empty string); `some s` is the (possibly lossily
decoded, since the file is opened with `errors='ignore'`) text the read
returns.  A failing `open()` call is a different outcome — it sits outside
the `try` and propagates — and is modelled separately by `ReadOutcome` /
`buildFileTreeR` below. -/
inductive FSEntry where
  | file (name : String) (content : Option String)
  | dir (name : String) (entries : List FSEntry)

def FSEntry.name : FSEntry → String
  | .file n _ => n
  | .dir n _ => n

def FSEntry.isDirE : FSEntry → Bool
  | .file _ _ => false
  | .dir _ _ => true

/-! ### Language classification (`_detect_language`) -/

/-- The closed extension-to-language table of `_detect_language`. -/
def languageMap : List (String × String) :=
  [(".py", "Python"), (".js", "JavaScript"), (".ts", "TypeScript"),
   (".jsx", "React"), (".tsx", "React"), (".java", "Java"), (".c", "C"),
   (".cpp", "C++"), (".go", "Go"), (".rs", "Rust"), (".rb", "Ruby"),
   (".php", "PHP"), (".html", "HTML"), (".css", "CSS"), (".md", "Markdown"),
   (".json", "JSON"), (".yml", "YAML"), (".yaml", "YAML")]

/-- `_detect_language`: lower-cased extension looked up in the table, with
the `'Unknown'` sentinel as default. -/
def detectLanguage (filePath : String) : String :=
  let ext : String := ⟨pyLower (splitextExt filePath.data)⟩
  ((languageMap.lookup ext).getD "Unknown")

/-! ### Walking and building the tree (`_build_file_tree`, `_get_or_create_node`) -/

mutual

/-- The `os.walk` triples contributed by one entry of the directory at
`path`: nothing for a file, and for a subdirectory its own triple followed
by its descendants' triples, top-down. -/
def osWalkEntry (path : String) : FSEntry → List (String × List FSEntry)
  | .file _ _ => []
  | .dir n es =>
    (path ++ "/" ++ n, es) :: osWalkList (path ++ "/" ++ n) es

def osWalkList (path : String) : List FSEntry → List (String × List FSEntry)
  | [] => []
  | e :: rest => osWalkEntry path e ++ osWalkList path rest

end

/-- `os.walk(path)` over the snapshot, top-down: yields the directory itself,
then recursively every subdirectory in entry order. -/
def osWalk (path : String) (entries : List FSEntry) : List (String × List FSEntry) :=
  (path, entries) :: osWalkList path entries

/-- The subdirectory child nodes appended for one walked directory: one empty
directory node per non-hidden directory entry, in entry order. -/
def dirKidsOf (dirpath : String) (es : List FSEntry) : List FileNode :=
  es.filterMap fun e =>
    match e with
    | .dir n _ =>
      if liHidden n then none
      else some (.mk (dirpath ++ "/" ++ n) true (some []) none none)
    | .file _ _ => none

/-- The file child nodes appended for one walked directory: one leaf node per
non-hidden file entry, in entry order, with the read content (the empty
string when the `f.read()` inside the `try` raises) and the detected
language.  This covers the runs in which every `open()` succeeds; an
`open()` failure propagates out of the walk and is modelled by
`fileKidsOfR` / `buildFileTreeR` below. -/
def fileKidsOf (dirpath : String) (es : List FSEntry) : List FileNode :=
  es.filterMap fun e =>
    match e with
    | .file n c =>
      if liHidden n then none
      else some (.mk (dirpath ++ "/" ++ n) false none (some (c.getD ""))
                    (some (detectLanguage (dirpath ++ "/" ++ n))))
    | .dir _ _ => none

/-- The child scan of `_get_or_create_node`: descend (with `k`) into the
first directory child whose basename is `part`; if none exists, create it,
descend into the creation, and append the result at the end of the children
list. -/
def scanLevel (parentPath part : String) (k : FileNode → FileNode) :
    List FileNode → List FileNode
  | [] => [k (.mk (parentPath ++ "/" ++ part) true (some []) none none)]
  | x :: xs =>
    if pyBasename x.path.data = part.data ∧ x.is_dir = true then
      k x :: xs
    else
      x :: scanLevel parentPath part k xs

/-- `_get_or_create_node` combined with the subsequent child appends of
`_build_file_tree`: navigates `parts` from `node`, creating missing
intermediate directory nodes, and appends `kids` to the located node's
children.  (A `children` of `none` along the way would raise in the source;
navigation only ever descends into directory nodes, whose children are
lists, so the `Option.getD []` is never the masking case in program runs.) -/
def getOrCreateAppend (parts : List String) (kids : List FileNode) (node : FileNode) :
    FileNode :=
  match parts with
  | [] =>
    match node with
    | .mk p d ch c l => .mk p d (some ((ch.getD []) ++ kids)) c l
  | part :: rest =>
    if part = "." then getOrCreateAppend rest kids node
    else
      match node with
      | .mk p d ch c l =>
        .mk p d
          (some (scanLevel p part (fun nd => getOrCreateAppend rest kids nd) (ch.getD [])))
          c l

/-- `os.path.relpath(dirpath, rootPath).split(os.sep)` for the paths the walk
produces (all of the form `rootPath/...`). -/
def relParts (rootPath dirpath : String) : List String :=
  (pySplitChar '/' (dropPre (rootPath.data ++ ['/']) dirpath.data)).map
    (fun l => (⟨l⟩ : String))

/-- The navigation parts for a walked dirpath: empty for the root itself
(the `root.path == path` early return of `_get_or_create_node`), otherwise
the relative path split on the separator. -/
def pathParts (rootPath dirpath : String) : List String :=
  if dirpath = rootPath then [] else relParts rootPath dirpath

/-- One iteration of the `os.walk` loop of `_build_file_tree`: skip any
dirpath containing `".git"` as a substring, otherwise locate (or create)
the node for the dirpath and append its non-hidden subdirectory and file
children, in that order. -/
def buildStep (rootPath : String) (t : FileNode) (step : String × List FSEntry) :
    FileNode :=
  if infixB ".git".data step.1.data then t
  else
    getOrCreateAppend (pathParts rootPath step.1)
      (dirKidsOf step.1 step.2 ++ fileKidsOf step.1 step.2) t

/-- `_build_file_tree`: fold the walk over the initial root node. -/
def buildFileTree (rootPath : String) (entries : List FSEntry) : FileNode :=
  (osWalk rootPath entries).foldl (buildStep rootPath)
    (.mk rootPath true (some []) none none)

/-! ### The build with the `open()` failure path (`_build_file_tree`,
`load_repo_from_url`)

In the source's file loop, `with open(file_path, ...)` sits outside the
`try`; only `content = f.read()` is inside it.  So a failing `open()`
(broken symlink, permission error) propagates out of `_build_file_tree`
into `load_repo_from_url`'s `except Exception`, which aborts the whole
load, while a failing `f.read()` is caught and substituted with `""`.
The refined snapshot below distinguishes the two outcomes, and the build
is re-embedded with `Except` so the propagating exception is visible. -/

/-- Per-file IO outcome in the walk's file loop: a successful read of `s`,
a `f.read()` that raises inside the `try`, or an `open()` that raises
outside it. -/
inductive ReadOutcome where
  | ok (s : String)
  | readFails
  | openFails

/-- A snapshot refined with the per-file IO outcome. -/
inductive FSEntryR where
  | file (name : String) (r : ReadOutcome)
  | dir (name : String) (entries : List FSEntryR)

mutual

def osWalkEntryR (path : String) : FSEntryR → List (String × List FSEntryR)
  | .file _ _ => []
  | .dir n es =>
    (path ++ "/" ++ n, es) :: osWalkListR (path ++ "/" ++ n) es

def osWalkListR (path : String) : List FSEntryR → List (String × List FSEntryR)
  | [] => []
  | e :: rest => osWalkEntryR path e ++ osWalkListR path rest

end

/-- `os.walk` over the refined snapshot (the walk itself performs no file
reads, so it is unchanged). -/
def osWalkR (path : String) (entries : List FSEntryR) :
    List (String × List FSEntryR) :=
  (path, entries) :: osWalkListR path entries

/-- The subdirectory child nodes of one walked directory (no IO). -/
def dirKidsOfR (dirpath : String) (es : List FSEntryR) : List FileNode :=
  es.filterMap fun e =>
    match e with
    | .dir n _ =>
      if liHidden n then none
      else some (.mk (dirpath ++ "/" ++ n) true (some []) none none)
    | .file _ _ => none

/-- The file child nodes of one walked directory, with the `open()` failure
propagating: the first non-hidden entry whose `open()` raises aborts the
loop (the children appended before the raise are discarded along with the
whole tree by the abort, so collecting the nodes first is
outcome-equivalent); a raising `f.read()` is substituted with `""`. -/
def fileKidsOfR (dirpath : String) : List FSEntryR → Except Unit (List FileNode)
  | [] => .ok []
  | .dir _ _ :: rest => fileKidsOfR dirpath rest
  | .file n r :: rest =>
    if liHidden n then fileKidsOfR dirpath rest
    else
      match r with
      | .openFails => .error ()
      | .ok s =>
        (fileKidsOfR dirpath rest).map
          (fun ks => FileNode.mk (dirpath ++ "/" ++ n) false none (some s)
            (some (detectLanguage (dirpath ++ "/" ++ n))) :: ks)
      | .readFails =>
        (fileKidsOfR dirpath rest).map
          (fun ks => FileNode.mk (dirpath ++ "/" ++ n) false none (some "")
            (some (detectLanguage (dirpath ++ "/" ++ n))) :: ks)

/-- One iteration of the walk loop with the exception visible. -/
def buildStepR (rootPath : String) (t : FileNode)
    (step : String × List FSEntryR) : Except Unit FileNode :=
  if infixB ".git".data step.1.data then .ok t
  else
    match fileKidsOfR step.1 step.2 with
    | .error e => .error e
    | .ok fks =>
      .ok (getOrCreateAppend (pathParts rootPath step.1)
        (dirKidsOfR step.1 step.2 ++ fks) t)

/-- The walk loop: the first raising step aborts the remaining iterations
(the exception propagates out of `_build_file_tree`). -/
def buildFoldR (rootPath : String) : List (String × List FSEntryR) → FileNode →
    Except Unit FileNode
  | [], t => .ok t
  | st :: rest, t =>
    match buildStepR rootPath t st with
    | .error e => .error e
    | .ok t2 => buildFoldR rootPath rest t2

/-- `_build_file_tree` over the refined snapshot: `.error` means the
exception escaped the walk — `load_repo_from_url`'s `except Exception`
then aborts the entire ingestion and returns failure, so no tree is
produced at all. -/
def buildFileTreeR (rootPath : String) (entries : List FSEntryR) :
    Except Unit FileNode :=
  buildFoldR rootPath (osWalkR rootPath entries)
    (.mk rootPath true (some []) none none)

/-! ### Module-path set (`_collect_project_files`) -/

/-- The dotted module path of one file:
`os.path.splitext(os.path.relpath(path, root))[0].replace(os.sep, '.')`. -/
def moduleOfPath (rootPath p : String) : String :=
  let rel := dropPre (rootPath.data ++ ['/']) p.data
  ⟨(splitextRoot rel).map (fun c => if c = '/' then '.' else c)⟩

mutual

/-- `_collect_project_files`: the dotted module paths of all files of the
tree (the `project_files` set, modelled as a list used for membership). -/
def collectProjectFiles (rootPath : String) : FileNode → List String
  | .mk p d ch _ _ =>
    if d = false then [moduleOfPath rootPath p]
    else
      match ch with
      | some cs => collectProjectFilesList rootPath cs
      | none => []

def collectProjectFilesList (rootPath : String) : List FileNode → List String
  | [] => []
  | x :: xs => collectProjectFiles rootPath x ++ collectProjectFilesList rootPath xs

end

/-! ### Depth-limited projection (`get_file_tree`, `_get_tree_with_depth`) -/

/-- The copy returned at the depth cutoff: path, directory flag and language
kept; content dropped; children emptied (directories) or `none` (files). -/
def shellOf : FileNode → FileNode
  | .mk p d _ _ l => .mk p d (if d then some [] else none) none l

mutual

/-- `_get_tree_with_depth`. -/
def getTreeWithDepth (node : FileNode) (maxDepth currentDepth : Nat) : FileNode :=
  if maxDepth ≤ currentDepth then shellOf node
  else
    match node with
    | .mk p d ch c l =>
      .mk p d
        (if d then
          some (match ch with
                | some cs => getTreeWithDepthList cs maxDepth (currentDepth + 1)
                | none => [])
         else none)
        c l

def getTreeWithDepthList (cs : List FileNode) (maxDepth currentDepth : Nat) :
    List FileNode :=
  match cs with
  | [] => []
  | x :: xs => getTreeWithDepth x maxDepth currentDepth ::
               getTreeWithDepthList xs maxDepth currentDepth

end

/-- `get_file_tree`: `None` depth returns the stored tree itself, otherwise
the depth-limited projection starting at depth 0. -/
def getFileTree (t : FileNode) (maxDepth : Option Nat) : FileNode :=
  match maxDepth with
  | none => t
  | some d => getTreeWithDepth t d 0

/-! ### Import extraction (`_analyze_python_dependencies`, `_analyze_js_dependencies`,
`_analyze_dependencies`) -/

/-- `_analyze_python_dependencies`: every stripped line of the content that
starts with `import ` or `from `.  (The two compiled regexes of the source
function are never applied.) -/
def pythonImportLines (content : String) : List String :=
  ((pySplitChar '\n' content.data).map pyStripWs).filterMap fun l =>
    if "import ".data.isPrefixOf l || "from ".data.isPrefixOf l then
      some (⟨l⟩ : String)
    else none

/-- `_analyze_js_dependencies`: every stripped line that starts with
`import ` or contains `require(`. -/
def jsImportLines (content : String) : List String :=
  ((pySplitChar '\n' content.data).map pyStripWs).filterMap fun l =>
    if "import ".data.isPrefixOf l || infixB "require(".data l then
      some (⟨l⟩ : String)
    else none

/-- The dependency map, modelled as an association list in insertion order
(Python dict semantics: assignment to an existing key updates it in place,
a new key is appended). -/
def dictInsert (m : List (String × List String)) (k : String) (v : List String) :
    List (String × List String) :=
  if m.any (fun kv => kv.1 = k) then
    m.map (fun kv => if kv.1 = k then (k, v) else kv)
  else m ++ [(k, v)]

/-- `self.dependency_map.get(file_path, default)`. -/
def dictGetD (m : List (String × List String)) (k : String) (d : List String) :
    List String :=
  (m.lookup k).getD d

/-- `analyze_file` inside `_analyze_dependencies`: record import lines for a
file node with nonempty content whose language has a registered extractor. -/
def analyzeFile (m : List (String × List String)) : FileNode →
    List (String × List String)
  | .mk p d _ c l =>
    if d = false ∧ (c.getD "") ≠ "" then
      if l = some "Python" then dictInsert m p (pythonImportLines (c.getD ""))
      else if l = some "JavaScript" ∨ l = some "TypeScript" ∨ l = some "React" then
        dictInsert m p (jsImportLines (c.getD ""))
      else m
    else m

mutual

/-- `traverse` inside `_analyze_dependencies`: recurse into directories with
nonempty children, analyze everything else as a file. -/
def analyzeTraverse (m : List (String × List String)) : FileNode →
    List (String × List String)
  | .mk p d ch c l =>
    match d, ch with
    | true, some (x :: xs) => analyzeTraverseList m (x :: xs)
    | dd, chh => analyzeFile m (.mk p dd chh c l)

def analyzeTraverseList (m : List (String × List String)) : List FileNode →
    List (String × List String)
  | [] => m
  | x :: xs => analyzeTraverseList (analyzeTraverse m x) xs

end

/-- `_analyze_dependencies`: reset the map and traverse the whole tree. -/
def analyzeDependencies (t : FileNode) : List (String × List String) :=
  analyzeTraverse [] t

/-! ### Dependency classification (`_is_project_dependency` and queries) -/

/-- First dotted segment: `w.split('.')[0]`. -/
def firstDotSeg (w : List Char) : List Char :=
  (pySplitChar '.' w).headD []

/-- `_is_project_dependency`: classify one recorded import line against the
module-path set.  The `[]` case of the first match would raise an
`IndexError` in the source (`[7:].split()[0]` on an empty split); it is
unreachable for the stripped lines the extractors record, since a stripped
line starting with `"import "` has a non-whitespace character after the
prefix. -/
def isProjectDependency (projectFiles : List String) (importLine : String) : Bool :=
  if "import ".data.isPrefixOf importLine.data then
    match pySplitWs (importLine.data.drop 7) with
    | [] => false
    | w :: _ => projectFiles.contains (⟨firstDotSeg w⟩ : String)
  else if "from ".data.isPrefixOf importLine.data then
    match pySplitWs (importLine.data.drop 5) with
    | p0 :: p1 :: _ =>
      if p1 = "import".data then projectFiles.contains (⟨firstDotSeg p0⟩ : String)
      else false
    | _ => false
  else false

/-- `get_file_dependencies`: the internal-only list for one file. -/
def getFileDependencies (depMap : List (String × List String))
    (projectFiles : List String) (filePath : String) : List String :=
  (dictGetD depMap filePath []).filter (fun dep => isProjectDependency projectFiles dep)

/-- `get_file_third_party_dependencies`: the external-only list for one file. -/
def getFileThirdPartyDependencies (depMap : List (String × List String))
    (projectFiles : List String) (filePath : String) : List String :=
  (dictGetD depMap filePath []).filter
    (fun dep => !(isProjectDependency projectFiles dep))

/-! ### Repository locator parsing (`load_repo_from_url`) -/

/-- The owner/name extraction of `load_repo_from_url`: `none` models the
early `return False` of the validation (the `InvalidLocator` rejection). -/
def parseRepoUrl (url : String) : Option (String × String) :=
  if "git@github.com:".data.isPrefixOf url.data then
    match pySplitChar ':' url.data with
    | _ :: second :: _ =>
      let parts := pySplitChar '/' second
      if parts.length < 2 then none
      else some (⟨parts.getD 0 []⟩, ⟨pyReplaceDel ".git".data (parts.getD 1 [])⟩)
    | _ => none
  else
    let parts := pySplitChar '/' (pyStripChar '/' url.data)
    if parts.length < 5 ∨ parts.getD 2 [] ≠ "github.com".data then none
    else some (⟨parts.getD 3 []⟩, ⟨parts.getD 4 []⟩)

/-- The network operations `load_repo_from_url` can perform, in order. -/
inductive NetEffect where
  | fetchMetadata
  | cloneRepo
deriving DecidableEq, Repr

/-- The outcome of the validation stage of `load_repo_from_url`:
`invalidLocator` is the early `return False` before any network call;
`attempted` means parsing succeeded and the network stage ran (its success
depends on the environment and is not modelled). -/
inductive LoadOutcome where
  | invalidLocator
  | attempted
deriving DecidableEq, Repr

/-- Control flow of `load_repo_from_url`: URL parsing happens first; on
parse failure the source returns `False` having performed no network call;
on success it calls `_fetch_repo_metadata` and then `git clone`. -/
def loadRepoFromUrl (url : String) : LoadOutcome × List NetEffect :=
  match parseRepoUrl url with
  | none => (LoadOutcome.invalidLocator, [])
  | some _ => (LoadOutcome.attempted, [NetEffect.fetchMetadata, NetEffect.cloneRepo])

/-! ### Spec-side locator patterns

These two definitions follow the specification's words for the locator
format (section 6: ssh-style `git@host:owner/repo.git` or https-style
`https://host/owner/repo`), to be compared with the source's acceptance
test `parseRepoUrl` above. -/

/-- A locator path segment: nonempty, free of the separators. -/
def segOkL (s : List Char) : Prop :=
  s ≠ [] ∧ '/' ∉ s ∧ ':' ∉ s

instance (s : List Char) : Decidable (segOkL s) := by
  unfold segOkL; infer_instance

/-- The spec's ssh-style locator form `git@host:owner/repo.git`. -/
def SpecSshForm (url : String) : Prop :=
  ∃ host owner repo : List Char, segOkL host ∧ segOkL owner ∧ segOkL repo ∧
    url.data = "git@".data ++ host ++ ':' :: owner ++ '/' :: repo ++ ".git".data

/-- The spec's https-style locator form `https://host/owner/repo`. -/
def SpecHttpsForm (url : String) : Prop :=
  ∃ host owner repo : List Char, segOkL host ∧ segOkL owner ∧ segOkL repo ∧
    url.data = "https://".data ++ host ++ '/' :: owner ++ '/' :: repo

/-! ### Observables over trees -/

mutual

/-- All node paths of a tree, in preorder. -/
def allPaths : FileNode → List String
  | .mk p _ ch _ _ =>
    p :: (match ch with
          | some cs => allPathsList cs
          | none => [])

def allPathsList : List FileNode → List String
  | [] => []
  | x :: xs => allPaths x ++ allPathsList xs

end

mutual

/-- All nodes of a tree, in preorder. -/
def allNodes : FileNode → List FileNode
  | .mk p d ch c l =>
    .mk p d ch c l :: (match ch with
                       | some cs => allNodesList cs
                       | none => [])

def allNodesList : List FileNode → List FileNode
  | [] => []
  | x :: xs => allNodes x ++ allNodesList xs

end

mutual

/-- The depth of a tree: the largest number of edges from the root to any
node. -/
def nodeDepth : FileNode → Nat
  | .mk _ _ ch _ _ =>
    match ch with
    | some cs => nodeDepthList cs
    | none => 0

def nodeDepthList : List FileNode → Nat
  | [] => 0
  | x :: xs => max (1 + nodeDepth x) (nodeDepthList xs)

end

mutual

/-- Structural equality of trees. -/
def nodeBEq : FileNode → FileNode → Bool
  | .mk p d ch c l, .mk q e dh f m =>
    p == q && d == e && c == f && l == m &&
    (match ch, dh with
     | some cs, some ds => listNodeBEq cs ds
     | none, none => true
     | _, _ => false)

def listNodeBEq : List FileNode → List FileNode → Bool
  | [], [] => true
  | x :: xs, y :: ys => nodeBEq x y && listNodeBEq xs ys
  | _, _ => false

end

mutual

/-- The depth-limited projection contract of the specification, by remaining
depth: at remaining depth `0` the projected node is the cutoff shell (path,
directory flag and language kept, content and children dropped); at
remaining depth `d+1` the projected node keeps path, flag, content and
language, and its children correspond one-to-one to the original children,
each agreeing at remaining depth `d`. -/
def agreesUpTo : Nat → FileNode → FileNode → Bool
  | 0, t, u => nodeBEq u (shellOf t)
  | d + 1, .mk p b ch c l, .mk q e dh f m =>
    q == p && e == b && f == c && m == l &&
    (match b, ch, dh with
     | true, some cs, some ds => listAgreesUpTo d cs ds
     | true, none, some ds => ds.isEmpty
     | false, _, none => true
     | _, _, _ => false)

def listAgreesUpTo : Nat → List FileNode → List FileNode → Bool
  | _, [], [] => true
  | d, x :: xs, y :: ys => agreesUpTo d x y && listAgreesUpTo d xs ys
  | _, _, _ => false

end

mutual

/-- Every file (non-directory) node of the tree carries a content value. -/
def filesHaveContent : FileNode → Bool
  | .mk _ d ch c _ =>
    (d || c.isSome) &&
    (match ch with
     | some cs => filesHaveContentList cs
     | none => true)

def filesHaveContentList : List FileNode → Bool
  | [] => true
  | x :: xs => filesHaveContent x && filesHaveContentList xs

end

mutual

/-- The same snapshot with every read succeeding: a failing read is replaced
by a successful read of the empty string. -/
def fsEntryReadOk : FSEntry → FSEntry
  | .file n c => .file n (some (c.getD ""))
  | .dir n es => .dir n (fsReadOkList es)

def fsReadOkList : List FSEntry → List FSEntry
  | [] => []
  | e :: es => fsEntryReadOk e :: fsReadOkList es

end

/-- A well-formed filesystem name: nonempty, free of the path separator,
and not one of the special entries `.` and `..` (which no real directory
listing contains). -/
def validName (n : String) : Bool :=
  !(n.data.isEmpty) && !(n.data.contains '/') && !(n = ".") && !(n = "..")

mutual

/-- Validity of a snapshot: every entry has a well-formed name, sibling
names are pairwise distinct, and subdirectories are recursively valid —
exactly the guarantees a real directory tree provides. -/
def validFS : List FSEntry → Bool
  | [] => true
  | e :: es =>
    validFSEntry e && !(es.any (fun x => x.name = e.name)) && validFS es

def validFSEntry : FSEntry → Bool
  | .file n _ => validName n
  | .dir n es => validName n && validFS es

end

/-- The languages with a registered dependency extractor in
`_analyze_dependencies`. -/
def registeredLanguage (l : Option String) : Bool :=
  l = some "Python" || l = some "JavaScript" || l = some "TypeScript" || l = some "React"

/-! ### Observables and expected shapes for the tree build (for C9)

`Rooted base q qs` says the path string `q` is `base` extended by the
segments `qs`.  `getNodeAt?` / `setNodeAt` read and replace the node a
navigation (mirroring `_get_or_create_node`'s child scan) reaches.
`expKids` is the characterization of the children a built directory node
ends up with: the non-hidden subdirectory nodes (filled by their own walk
segments, or left as empty shells when their dirpath contains `".git"`),
then the non-hidden file nodes, then the hidden subdirectories re-created
by `_get_or_create_node` during the walk's descent (in entry order,
skipping those whose dirpath contains `".git"`). -/

def Rooted (base q : String) (qs : List String) : Prop :=
  q.data = base.data ++ (qs.map (fun s => '/' :: s.data)).join

/-- A navigation-friendly name: nonempty, no separator, not `"."`. -/
def goodSeg (s : String) : Prop :=
  s.data ≠ [] ∧ '/' ∉ s.data ∧ s ≠ "."

/-- The child scan of navigation: find the first directory child whose
basename is `part` and continue with `k`. -/
def scanFind (part : String) (k : FileNode → Option FileNode) :
    List FileNode → Option FileNode
  | [] => none
  | x :: xs =>
    if pyBasename x.path.data = part.data ∧ x.is_dir = true then k x
    else scanFind part k xs

/-- Read the node navigation reaches (along existing children only). -/
def getNodeAt? (node : FileNode) (parts : List String) : Option FileNode :=
  match parts with
  | [] => some node
  | part :: rest =>
    match node with
    | .mk _ _ ch _ _ => scanFind part (fun x => getNodeAt? x rest) (ch.getD [])

/-- The child scan of replacement: rewrite (with `k`) the first directory
child whose basename is `part`. -/
def scanReplace (part : String) (k : FileNode → FileNode) :
    List FileNode → List FileNode
  | [] => []
  | x :: xs =>
    if pyBasename x.path.data = part.data ∧ x.is_dir = true then k x :: xs
    else x :: scanReplace part k xs

/-- Replace the node navigation reaches by `r`. -/
def setNodeAt (node : FileNode) (parts : List String) (r : FileNode) : FileNode :=
  match parts with
  | [] => r
  | part :: rest =>
    match node with
    | .mk p d ch c l =>
      .mk p d (some (scanReplace part (fun x => setNodeAt x rest r) (ch.getD []))) c l

mutual

/-- The filled non-hidden subdirectory children of a built directory node. -/
def expDirKids (P : String) : List FSEntry → List FileNode
  | [] => []
  | .file _ _ :: rest => expDirKids P rest
  | .dir n es2 :: rest =>
    if liHidden n then expDirKids P rest
    else
      (if infixB ".git".data ((P ++ "/" ++ n) : String).data then
        FileNode.mk (P ++ "/" ++ n) true (some []) none none
       else
        FileNode.mk (P ++ "/" ++ n) true (some (expKids (P ++ "/" ++ n) es2)) none none)
      :: expDirKids P rest
termination_by es => (sizeOf es, 0)

/-- The hidden subdirectory children re-created by the walk's descent. -/
def expHiddenKids (P : String) : List FSEntry → List FileNode
  | [] => []
  | .file _ _ :: rest => expHiddenKids P rest
  | .dir n es2 :: rest =>
    if liHidden n && !(infixB ".git".data ((P ++ "/" ++ n) : String).data) then
      FileNode.mk (P ++ "/" ++ n) true (some (expKids (P ++ "/" ++ n) es2)) none none
        :: expHiddenKids P rest
    else expHiddenKids P rest
termination_by es => (sizeOf es, 0)

/-- The expected final children of the built directory node at `P`. -/
def expKids (P : String) (es : List FSEntry) : List FileNode :=
  expDirKids P es ++ fileKidsOf P es ++ expHiddenKids P es
termination_by (sizeOf es, 1)

end

/-- The expected built subtree for the directory at `P` with entries `es`
(when the dirpath `P` itself is not skipped). -/
def expTree (P : String) (es : List FSEntry) : FileNode :=
  .mk P true (some (expKids P es)) none none

/-- The children of the node at `P` midway through its walk: directory
entries already walked (`esDone`) are filled, those still to walk
(`esTodo`) are the initial empty shells; file children are final from the
start; hidden directories walked so far have been re-created at the end. -/
def midChildren (P : String) (esDone esTodo : List FSEntry) : List FileNode :=
  expDirKids P esDone ++ dirKidsOf P esTodo ++
    fileKidsOf P (esDone ++ esTodo) ++ expHiddenKids P esDone

/-- `q` is the path of the child named `n` of the directory at `P`, or of
one of that child's descendants: it extends `P ++ "/" ++ n` by further
nonempty separator-free segments. -/
def UnderSeg (P n q : String) : Prop :=
  ∃ qs : List String, (∀ s ∈ qs, s.data ≠ [] ∧ '/' ∉ s.data) ∧
    Rooted (P ++ "/" ++ n) q qs

/-- The expected fully-built child node for one walked (non-skipped) entry
of the directory at `P`. -/
def expChild (P : String) : FSEntry → FileNode
  | .file n c =>
    .mk (P ++ "/" ++ n) false none (some (c.getD ""))
      (some (detectLanguage (P ++ "/" ++ n)))
  | .dir n es2 => expTree (P ++ "/" ++ n) es2

/-! ### Induction principles for the nested inductives -/

mutual

theorem FileNode.indAux (motive1 : FileNode → Prop) (motive2 : List FileNode → Prop)
    (hnode : ∀ p d ch c l, (∀ cs, ch = some cs → motive2 cs) → motive1 (.mk p d ch c l))
    (hnil : motive2 [])
    (hcons : ∀ x xs, motive1 x → motive2 xs → motive2 (x :: xs)) :
    ∀ t, motive1 t
  | .mk p d none c l =>
    hnode p d none c l (fun _ hcs => nomatch hcs)
  | .mk p d (some cs) c l =>
    hnode p d (some cs) c l
      (fun cs2 hcs =>
        Option.some.inj hcs ▸ FileNode.indListAux motive1 motive2 hnode hnil hcons cs)

theorem FileNode.indListAux (motive1 : FileNode → Prop) (motive2 : List FileNode → Prop)
    (hnode : ∀ p d ch c l, (∀ cs, ch = some cs → motive2 cs) → motive1 (.mk p d ch c l))
    (hnil : motive2 [])
    (hcons : ∀ x xs, motive1 x → motive2 xs → motive2 (x :: xs)) :
    ∀ cs, motive2 cs
  | [] => hnil
  | x :: xs =>
    hcons x xs (FileNode.indAux motive1 motive2 hnode hnil hcons x)
      (FileNode.indListAux motive1 motive2 hnode hnil hcons xs)

end

/-- Mutual structural induction over `FileNode` and `List FileNode`. -/
theorem FileNode.mutualInduction (motive1 : FileNode → Prop)
    (motive2 : List FileNode → Prop)
    (hnode : ∀ p d ch c l, (∀ cs, ch = some cs → motive2 cs) → motive1 (.mk p d ch c l))
    (hnil : motive2 [])
    (hcons : ∀ x xs, motive1 x → motive2 xs → motive2 (x :: xs)) :
    (∀ t, motive1 t) ∧ (∀ cs, motive2 cs) :=
  ⟨FileNode.indAux motive1 motive2 hnode hnil hcons,
   FileNode.indListAux motive1 motive2 hnode hnil hcons⟩

mutual

theorem FSEntry.indAuxE (motive1 : FSEntry → Prop) (motive2 : List FSEntry → Prop)
    (hfile : ∀ n c, motive1 (.file n c))
    (hdir : ∀ n es, motive2 es → motive1 (.dir n es))
    (hnil : motive2 [])
    (hcons : ∀ e es, motive1 e → motive2 es → motive2 (e :: es)) :
    ∀ e, motive1 e
  | .file n c => hfile n c
  | .dir n es => hdir n es (FSEntry.indListAuxE motive1 motive2 hfile hdir hnil hcons es)

theorem FSEntry.indListAuxE (motive1 : FSEntry → Prop) (motive2 : List FSEntry → Prop)
    (hfile : ∀ n c, motive1 (.file n c))
    (hdir : ∀ n es, motive2 es → motive1 (.dir n es))
    (hnil : motive2 [])
    (hcons : ∀ e es, motive1 e → motive2 es → motive2 (e :: es)) :
    ∀ es, motive2 es
  | [] => hnil
  | e :: es =>
    hcons e es (FSEntry.indAuxE motive1 motive2 hfile hdir hnil hcons e)
      (FSEntry.indListAuxE motive1 motive2 hfile hdir hnil hcons es)

end

/-- Mutual structural induction over `FSEntry` and `List FSEntry`. -/
theorem FSEntry.mutualInductionE (motive1 : FSEntry → Prop) (motive2 : List FSEntry → Prop)
    (hfile : ∀ n c, motive1 (.file n c))
    (hdir : ∀ n es, motive2 es → motive1 (.dir n es))
    (hnil : motive2 [])
    (hcons : ∀ e es, motive1 e → motive2 es → motive2 (e :: es)) :
    (∀ e, motive1 e) ∧ (∀ es, motive2 es) :=
  ⟨FSEntry.indAuxE motive1 motive2 hfile hdir hnil hcons,
   FSEntry.indListAuxE motive1 motive2 hfile hdir hnil hcons⟩

/-! ### Dictionary lemmas -/

theorem lookup_cons_pair (p : String) (kv : String × List String)
    (l : List (String × List String)) :
    List.lookup p (kv :: l) =
      if p == kv.1 then some kv.2 else List.lookup p l := by
  obtain ⟨k, v⟩ := kv
  cases hb : p == k <;> simp [List.lookup, hb]

theorem lookup_map_replace (k p : String) (v : List String) (h : p ≠ k) :
    ∀ m : List (String × List String),
    List.lookup p (m.map fun kv => if kv.1 = k then (k, v) else kv) = List.lookup p m
  | [] => rfl
  | kv :: rest => by
    rw [List.map_cons, lookup_cons_pair, lookup_cons_pair,
        lookup_map_replace k p v h rest]
    by_cases hk : kv.1 = k
    · rw [if_pos hk]
      have hpk : (p == k) = false := by simp [h]
      have hpkv : (p == kv.1) = false := by simp [hk ▸ h]
      simp [hpk, hpkv]
    · rw [if_neg hk]

theorem lookup_append_single_ne (k p : String) (v : List String) (h : p ≠ k) :
    ∀ m : List (String × List String),
    List.lookup p (m ++ [(k, v)]) = List.lookup p m
  | [] => by
    have hpk : (p == k) = false := by simp [h]
    simp [List.lookup, hpk]
  | kv :: rest => by
    rw [List.cons_append, lookup_cons_pair, lookup_cons_pair,
        lookup_append_single_ne k p v h rest]

theorem lookup_dictInsert_ne (m : List (String × List String)) (k : String)
    (v : List String) (p : String) (h : p ≠ k) :
    (dictInsert m k v).lookup p = m.lookup p := by
  unfold dictInsert
  by_cases hA : m.any (fun kv => kv.1 = k)
  · simp only [hA, if_true]
    exact lookup_map_replace k p v h m
  · simp only [hA, if_false]
    exact lookup_append_single_ne k p v h m

theorem lookup_analyzeFile (m : List (String × List String)) (node : FileNode)
    (p : String) (h : node.path = p → registeredLanguage node.language = false) :
    (analyzeFile m node).lookup p = m.lookup p := by
  obtain ⟨q, d, ch, c, l⟩ := node
  by_cases hq : q = p
  · have hreg : registeredLanguage l = false := h hq
    have h1 : ¬ l = some "Python" := by
      intro he; simp [registeredLanguage, he] at hreg
    have h2 : ¬ (l = some "JavaScript" ∨ l = some "TypeScript" ∨ l = some "React") := by
      intro he; rcases he with he | he | he <;> simp [registeredLanguage, he] at hreg
    show List.lookup p (analyzeFile m (.mk q d ch c l)) = List.lookup p m
    simp only [analyzeFile]
    by_cases hc : d = false ∧ (c.getD "") ≠ ""
    · rw [if_pos hc, if_neg h1, if_neg h2]
    · rw [if_neg hc]
  · have hne : p ≠ q := fun he => hq he.symm
    show List.lookup p (analyzeFile m (.mk q d ch c l)) = List.lookup p m
    simp only [analyzeFile]
    by_cases hc : d = false ∧ (c.getD "") ≠ ""
    · rw [if_pos hc]
      by_cases hpy : l = some "Python"
      · rw [if_pos hpy]
        exact lookup_dictInsert_ne m q _ p hne
      · rw [if_neg hpy]
        by_cases hjs : l = some "JavaScript" ∨ l = some "TypeScript" ∨ l = some "React"
        · rw [if_pos hjs]
          exact lookup_dictInsert_ne m q _ p hne
        · rw [if_neg hjs]
    · rw [if_neg hc]

theorem self_mem_allNodes (t : FileNode) : t ∈ allNodes t := by
  obtain ⟨p, d, ch, c, l⟩ := t
  cases ch <;> rw [allNodes] <;> exact List.mem_cons_self _ _

theorem mem_allNodes_of_children (q : String) (d : Bool) (c l : Option String)
    (cs : List FileNode) (n : FileNode) (hn : n ∈ allNodesList cs) :
    n ∈ allNodes (.mk q d (some cs) c l) := by
  rw [allNodes]
  exact List.mem_cons_of_mem _ hn

theorem mem_allNodesList_left (x : FileNode) (xs : List FileNode) (n : FileNode)
    (hn : n ∈ allNodes x) : n ∈ allNodesList (x :: xs) := by
  rw [allNodesList]
  exact List.mem_append_left _ hn

theorem mem_allNodesList_right (x : FileNode) (xs : List FileNode) (n : FileNode)
    (hn : n ∈ allNodesList xs) : n ∈ allNodesList (x :: xs) := by
  rw [allNodesList]
  exact List.mem_append_right _ hn

theorem lookup_analyzeTraverse_pair :
    (∀ t : FileNode, ∀ (m : List (String × List String)) (p : String),
      (∀ n ∈ allNodes t,
        FileNode.path n = p → registeredLanguage (FileNode.language n) = false) →
      (analyzeTraverse m t).lookup p = m.lookup p) ∧
    (∀ cs : List FileNode, ∀ (m : List (String × List String)) (p : String),
      (∀ n ∈ allNodesList cs,
        FileNode.path n = p → registeredLanguage (FileNode.language n) = false) →
      (analyzeTraverseList m cs).lookup p = m.lookup p) := by
  apply FileNode.mutualInduction
  · intro q d ch c l ih m p h
    match d, ch with
    | true, some (x :: xs) =>
      have hsub : ∀ n ∈ allNodesList (x :: xs),
          FileNode.path n = p → registeredLanguage (FileNode.language n) = false := by
        intro n hn
        exact h n (mem_allNodes_of_children q true c l (x :: xs) n hn)
      exact ih (x :: xs) rfl m p hsub
    | true, some [] =>
      exact lookup_analyzeFile m (.mk q true (some []) c l) p
        (h (.mk q true (some []) c l) (self_mem_allNodes _))
    | true, none =>
      exact lookup_analyzeFile m (.mk q true none c l) p
        (h (.mk q true none c l) (self_mem_allNodes _))
    | false, chh =>
      exact lookup_analyzeFile m (.mk q false chh c l) p
        (h (.mk q false chh c l) (self_mem_allNodes _))
  · intro m p h
    rfl
  · intro x xs ihx ihxs m p h
    have hx : ∀ n ∈ allNodes x,
        FileNode.path n = p → registeredLanguage (FileNode.language n) = false := by
      intro n hn
      exact h n (mem_allNodesList_left x xs n hn)
    have hxs : ∀ n ∈ allNodesList xs,
        FileNode.path n = p → registeredLanguage (FileNode.language n) = false := by
      intro n hn
      exact h n (mem_allNodesList_right x xs n hn)
    calc (analyzeTraverseList (analyzeTraverse m x) xs).lookup p
        = (analyzeTraverse m x).lookup p := ihxs _ p hxs
      _ = m.lookup p := ihx m p hx

theorem lookup_analyzeTraverse (t : FileNode) (m : List (String × List String))
    (p : String)
    (h : ∀ n ∈ allNodes t,
      FileNode.path n = p → registeredLanguage (FileNode.language n) = false) :
    (analyzeTraverse m t).lookup p = m.lookup p :=
  lookup_analyzeTraverse_pair.1 t m p h

/-! ### Content totality and read-failure tolerance (for C7) -/

theorem filesHaveContentList_append (a b : List FileNode) :
    filesHaveContentList (a ++ b) = (filesHaveContentList a && filesHaveContentList b) := by
  induction a with
  | nil => simp [filesHaveContentList]
  | cons x xs ih =>
    rw [List.cons_append, filesHaveContentList, filesHaveContentList, ih,
        Bool.and_assoc]

theorem filesHaveContent_shell (p : String) :
    filesHaveContent (.mk p true (some []) none none) = true := by
  rw [filesHaveContent, filesHaveContentList]
  rfl

theorem filesHaveContent_scanLevel (pp part : String) (k : FileNode → FileNode)
    (hk : ∀ x, filesHaveContent x = true → filesHaveContent (k x) = true) :
    ∀ cs, filesHaveContentList cs = true →
      filesHaveContentList (scanLevel pp part k cs) = true
  | [], _ => by
    rw [scanLevel, filesHaveContentList, filesHaveContentList]
    rw [hk _ (filesHaveContent_shell _)]
    rfl
  | x :: xs, h => by
    rw [filesHaveContentList, Bool.and_eq_true] at h
    rw [scanLevel]
    by_cases hm : pyBasename x.path.data = part.data ∧ x.is_dir = true
    · rw [if_pos hm, filesHaveContentList, hk x h.1,
          h.2]
      rfl
    · rw [if_neg hm, filesHaveContentList, h.1,
          filesHaveContent_scanLevel pp part k hk xs h.2]
      rfl

theorem filesHaveContent_mk (p : String) (d : Bool) (cs : List FileNode)
    (c l : Option String) :
    filesHaveContent (.mk p d (some cs) c l) =
      ((d || c.isSome) && filesHaveContentList cs) := by
  rw [filesHaveContent]

theorem filesHaveContent_mk_none (p : String) (d : Bool) (c l : Option String) :
    filesHaveContent (.mk p d none c l) = (d || c.isSome) := by
  rw [filesHaveContent]
  exact Bool.and_true _

theorem filesHaveContent_getOrCreateAppend :
    ∀ (parts : List String) (kids : List FileNode) (node : FileNode),
      filesHaveContentList kids = true → filesHaveContent node = true →
      filesHaveContent (getOrCreateAppend parts kids node) = true
  | [], kids, .mk p d ch c l, hkids, hnode => by
    rw [getOrCreateAppend]
    cases ch with
    | none =>
      rw [filesHaveContent_mk_none] at hnode
      rw [filesHaveContent_mk, Option.getD_none, List.nil_append, hkids, hnode]
      rfl
    | some cs =>
      rw [filesHaveContent_mk, Bool.and_eq_true] at hnode
      rw [filesHaveContent_mk, Option.getD_some, filesHaveContentList_append,
          hkids, hnode.1, hnode.2]
      rfl
  | part :: rest, kids, .mk p d ch c l, hkids, hnode => by
    rw [getOrCreateAppend]
    by_cases hdot : part = "."
    · rw [if_pos hdot]
      exact filesHaveContent_getOrCreateAppend rest kids _ hkids hnode
    · rw [if_neg hdot]
      have hscan := filesHaveContent_scanLevel p part
        (fun nd => getOrCreateAppend rest kids nd)
        (fun x hx => filesHaveContent_getOrCreateAppend rest kids x hkids hx)
      cases ch with
      | none =>
        rw [filesHaveContent_mk_none] at hnode
        rw [filesHaveContent_mk, Option.getD_none, hscan [] rfl, hnode]
        rfl
      | some cs =>
        rw [filesHaveContent_mk, Bool.and_eq_true] at hnode
        rw [filesHaveContent_mk, Option.getD_some, hscan cs hnode.2, hnode.1]
        rfl

theorem filesHaveContentList_dirKidsOf (p : String) :
    ∀ es : List FSEntry, filesHaveContentList (dirKidsOf p es) = true
  | [] => rfl
  | .file n c :: rest => by
    rw [dirKidsOf] at *
    simpa [List.filterMap_cons] using filesHaveContentList_dirKidsOf p rest
  | .dir n es2 :: rest => by
    rw [dirKidsOf] at *
    by_cases hh : liHidden n = true
    · simpa [List.filterMap_cons, hh] using filesHaveContentList_dirKidsOf p rest
    · have hrest := filesHaveContentList_dirKidsOf p rest
      rw [dirKidsOf] at hrest
      simp only [List.filterMap_cons, hh, Bool.false_eq_true, if_false]
      rw [filesHaveContentList, hrest, filesHaveContent_shell]
      rfl

theorem filesHaveContentList_fileKidsOf (p : String) :
    ∀ es : List FSEntry, filesHaveContentList (fileKidsOf p es) = true
  | [] => rfl
  | .dir n es2 :: rest => by
    rw [fileKidsOf] at *
    simpa [List.filterMap_cons] using filesHaveContentList_fileKidsOf p rest
  | .file n c :: rest => by
    rw [fileKidsOf] at *
    by_cases hh : liHidden n = true
    · simpa [List.filterMap_cons, hh] using filesHaveContentList_fileKidsOf p rest
    · have hrest := filesHaveContentList_fileKidsOf p rest
      rw [fileKidsOf] at hrest
      simp only [List.filterMap_cons, hh, Bool.false_eq_true, if_false]
      rw [filesHaveContentList, hrest]
      rw [filesHaveContent]
      rfl

theorem filesHaveContent_buildStep (rootPath : String) (t : FileNode)
    (step : String × List FSEntry) (h : filesHaveContent t = true) :
    filesHaveContent (buildStep rootPath t step) = true := by
  rw [buildStep]
  by_cases hskip : infixB ".git".data step.1.data = true
  · rw [if_pos hskip]; exact h
  · rw [if_neg hskip]
    apply filesHaveContent_getOrCreateAppend _ _ _ _ h
    rw [filesHaveContentList_append, filesHaveContentList_dirKidsOf,
        filesHaveContentList_fileKidsOf]
    rfl

theorem filesHaveContent_foldl (rootPath : String) :
    ∀ (steps : List (String × List FSEntry)) (t : FileNode),
      filesHaveContent t = true →
      filesHaveContent (steps.foldl (buildStep rootPath) t) = true
  | [], t, h => h
  | s :: ss, t, h =>
    filesHaveContent_foldl rootPath ss _ (filesHaveContent_buildStep rootPath t s h)

theorem fsReadOkList_eq_map : ∀ es : List FSEntry,
    fsReadOkList es = es.map fsEntryReadOk
  | [] => rfl
  | e :: es => by rw [fsReadOkList, List.map_cons, fsReadOkList_eq_map es]

theorem dirKidsOf_fsReadOk (p : String) (es : List FSEntry) :
    dirKidsOf p (fsReadOkList es) = dirKidsOf p es := by
  rw [fsReadOkList_eq_map, dirKidsOf, dirKidsOf, List.filterMap_map]
  congr 1
  funext e
  cases e with
  | file n c => rw [Function.comp_apply, fsEntryReadOk]
  | dir n es2 => rw [Function.comp_apply, fsEntryReadOk]

theorem fileKidsOf_fsReadOk (p : String) (es : List FSEntry) :
    fileKidsOf p (fsReadOkList es) = fileKidsOf p es := by
  rw [fsReadOkList_eq_map, fileKidsOf, fileKidsOf, List.filterMap_map]
  congr 1
  funext e
  cases e with
  | file n c =>
    rw [Function.comp_apply, fsEntryReadOk]
    rfl
  | dir n es2 => rw [Function.comp_apply, fsEntryReadOk]

theorem osWalk_fsReadOk_pair :
    (∀ (e : FSEntry) (p : String),
      osWalkEntry p (fsEntryReadOk e) =
        (osWalkEntry p e).map (fun st => (st.1, fsReadOkList st.2))) ∧
    (∀ (es : List FSEntry) (p : String),
      osWalkList p (fsReadOkList es) =
        (osWalkList p es).map (fun st => (st.1, fsReadOkList st.2))) := by
  apply FSEntry.mutualInductionE
  · intro n c p
    rfl
  · intro n es ih p
    rw [fsEntryReadOk, osWalkEntry, osWalkEntry, List.map_cons, ih]
  · intro p
    rfl
  · intro e es ihe ihes p
    rw [fsReadOkList, osWalkList, osWalkList, List.map_append, ihe, ihes]

theorem buildStep_fsReadOk (rootPath : String) (t : FileNode) (q : String)
    (es : List FSEntry) :
    buildStep rootPath t (q, fsReadOkList es) = buildStep rootPath t (q, es) := by
  rw [buildStep, buildStep]
  by_cases hskip : infixB ".git".data q.data = true
  · rw [if_pos hskip, if_pos hskip]
  · rw [if_neg hskip, if_neg hskip, dirKidsOf_fsReadOk, fileKidsOf_fsReadOk]

theorem foldl_buildStep_fsReadOk (rootPath : String) :
    ∀ (steps : List (String × List FSEntry)) (t : FileNode),
      (steps.map (fun st => (st.1, fsReadOkList st.2))).foldl (buildStep rootPath) t =
      steps.foldl (buildStep rootPath) t
  | [], t => rfl
  | (q, es) :: ss, t => by
    rw [List.map_cons, List.foldl_cons, List.foldl_cons, buildStep_fsReadOk]
    exact foldl_buildStep_fsReadOk rootPath ss _

/-! ### Depth-limited projection lemmas (for C2) -/

theorem nodeBEq_mk_some (p : String) (d : Bool) (cs : List FileNode)
    (c l : Option String) (q : String) (e : Bool) (ds : List FileNode)
    (f m : Option String) :
    nodeBEq (.mk p d (some cs) c l) (.mk q e (some ds) f m) =
      (p == q && d == e && c == f && l == m && listNodeBEq cs ds) := by
  rw [nodeBEq]

theorem nodeBEq_mk_none (p : String) (d : Bool) (c l : Option String)
    (q : String) (e : Bool) (f m : Option String) :
    nodeBEq (.mk p d none c l) (.mk q e none f m) =
      (p == q && d == e && c == f && l == m) := by
  rw [nodeBEq]
  exact Bool.and_true _

theorem nodeBEq_refl_pair :
    (∀ t : FileNode, nodeBEq t t = true) ∧
    (∀ cs : List FileNode, listNodeBEq cs cs = true) := by
  apply FileNode.mutualInduction
  · intro p d ch c l ih
    cases ch with
    | none => rw [nodeBEq_mk_none]; simp
    | some cs => rw [nodeBEq_mk_some, ih cs rfl]; simp
  · rfl
  · intro x xs ihx ihxs
    rw [listNodeBEq, ihx, ihxs]
    rfl

theorem shellOf_mk (p : String) (d : Bool) (ch : Option (List FileNode))
    (c l : Option String) :
    shellOf (.mk p d ch c l) = .mk p d (if d then some [] else none) none l := rfl

theorem agreesUpTo_zero (t u : FileNode) :
    agreesUpTo 0 t u = nodeBEq u (shellOf t) := by
  rw [agreesUpTo]

theorem agreesUpTo_succ_dir_some (k : Nat) (p : String) (cs : List FileNode)
    (c l : Option String) (q : String) (e : Bool) (ds : List FileNode)
    (f m : Option String) :
    agreesUpTo (k + 1) (.mk p true (some cs) c l) (.mk q e (some ds) f m) =
      (q == p && e == true && f == c && m == l && listAgreesUpTo k cs ds) := by
  rw [agreesUpTo]

theorem agreesUpTo_succ_dir_none (k : Nat) (p : String) (c l : Option String)
    (q : String) (e : Bool) (ds : List FileNode) (f m : Option String) :
    agreesUpTo (k + 1) (.mk p true none c l) (.mk q e (some ds) f m) =
      (q == p && e == true && f == c && m == l && ds.isEmpty) := by
  rw [agreesUpTo]

theorem agreesUpTo_succ_file (k : Nat) (p : String)
    (ch : Option (List FileNode)) (c l : Option String) (q : String) (e : Bool)
    (f m : Option String) :
    agreesUpTo (k + 1) (.mk p false ch c l) (.mk q e none f m) =
      (q == p && e == false && f == c && m == l) := by
  rw [agreesUpTo]
  cases ch <;> exact Bool.and_true _

theorem getTreeWithDepth_cutoff (t : FileNode) (maxD cur : Nat)
    (h : maxD ≤ cur) : getTreeWithDepth t maxD cur = shellOf t := by
  obtain ⟨p, d, ch, c, l⟩ := t
  cases ch <;> rw [getTreeWithDepth, if_pos h]

theorem getTreeWithDepth_step (p : String) (d : Bool)
    (ch : Option (List FileNode)) (c l : Option String) (maxD cur : Nat)
    (h : cur < maxD) :
    getTreeWithDepth (.mk p d ch c l) maxD cur =
      .mk p d
        (if d then
          some (match ch with
                | some cs => getTreeWithDepthList cs maxD (cur + 1)
                | none => [])
         else none)
        c l := by
  cases ch <;> rw [getTreeWithDepth, if_neg (Nat.not_le.mpr h)]

theorem agreesUpTo_getTreeWithDepth_pair :
    (∀ t : FileNode, ∀ maxD cur : Nat,
      agreesUpTo (maxD - cur) t (getTreeWithDepth t maxD cur) = true) ∧
    (∀ cs : List FileNode, ∀ maxD cur : Nat,
      listAgreesUpTo (maxD - cur) cs (getTreeWithDepthList cs maxD cur) = true) := by
  apply FileNode.mutualInduction
  · intro p d ch c l ih maxD cur
    by_cases hle : maxD ≤ cur
    · rw [getTreeWithDepth_cutoff _ _ _ hle, Nat.sub_eq_zero_of_le hle,
          agreesUpTo_zero]
      exact nodeBEq_refl_pair.1 _
    · have hlt : cur < maxD := Nat.not_le.mp hle
      have hk : maxD - cur = (maxD - (cur + 1)) + 1 := by omega
      rw [getTreeWithDepth_step p d ch c l maxD cur hlt, hk]
      cases d with
      | false =>
        rw [if_neg (by simp), agreesUpTo_succ_file]
        simp
      | true =>
        rw [if_pos rfl]
        cases ch with
        | none =>
          rw [agreesUpTo_succ_dir_none]
          simp [getTreeWithDepthList]
        | some cs =>
          rw [agreesUpTo_succ_dir_some, ih cs rfl maxD (cur + 1)]
          simp
  · intro maxD cur
    rw [getTreeWithDepthList, listAgreesUpTo]
  · intro x xs ihx ihxs maxD cur
    rw [getTreeWithDepthList, listAgreesUpTo, ihx maxD cur, ihxs maxD cur]
    rfl

theorem nodeDepth_mk_some (p : String) (d : Bool) (cs : List FileNode)
    (c l : Option String) :
    nodeDepth (.mk p d (some cs) c l) = nodeDepthList cs := by
  rw [nodeDepth]

theorem nodeDepth_mk_none (p : String) (d : Bool) (c l : Option String) :
    nodeDepth (.mk p d none c l) = 0 := by
  rw [nodeDepth]

theorem nodeDepth_getTreeWithDepth_pair :
    (∀ t : FileNode, ∀ maxD cur : Nat,
      nodeDepth (getTreeWithDepth t maxD cur) ≤ maxD - cur) ∧
    (∀ cs : List FileNode, ∀ maxD cur : Nat,
      nodeDepthList (getTreeWithDepthList cs maxD cur) ≤ (maxD - cur) + 1) := by
  apply FileNode.mutualInduction
  · intro p d ch c l ih maxD cur
    by_cases hle : maxD ≤ cur
    · rw [getTreeWithDepth_cutoff _ _ _ hle, shellOf_mk]
      cases d with
      | false => rw [if_neg (by simp), nodeDepth_mk_none]; omega
      | true => rw [if_pos rfl, nodeDepth_mk_some, nodeDepthList]; omega
    · have hlt : cur < maxD := Nat.not_le.mp hle
      rw [getTreeWithDepth_step p d ch c l maxD cur hlt]
      cases d with
      | false => rw [if_neg (by simp), nodeDepth_mk_none]; omega
      | true =>
        rw [if_pos rfl, nodeDepth_mk_some]
        cases ch with
        | none =>
          rw [show (match (none : Option (List FileNode)) with
                    | some cs => getTreeWithDepthList cs maxD (cur + 1)
                    | none => []) = [] from rfl, nodeDepthList]
          omega
        | some cs =>
          rw [show (match (some cs : Option (List FileNode)) with
                    | some cs2 => getTreeWithDepthList cs2 maxD (cur + 1)
                    | none => []) = getTreeWithDepthList cs maxD (cur + 1) from rfl]
          have := ih cs rfl maxD (cur + 1)
          omega
  · intro maxD cur
    rw [getTreeWithDepthList, nodeDepthList]
    omega
  · intro x xs ihx ihxs maxD cur
    rw [getTreeWithDepthList, nodeDepthList]
    have h1 := ihx maxD cur
    have h2 := ihxs maxD cur
    omega

/-! ### Whitespace-token lemmas (for C1) -/

theorem splitWsAux_token_nil :
    ∀ (tok : List Char), (∀ c ∈ tok, pyIsSpace c = false) →
    ∀ acc : List Char, acc.reverse ++ tok ≠ [] →
    splitWsAux tok acc = [acc.reverse ++ tok]
  | [], _, acc, hne => by
    have hacc : acc ≠ [] := by
      intro h0
      exact hne (by rw [h0]; rfl)
    rw [splitWsAux, if_neg (by simpa [List.isEmpty_iff] using hacc)]
    rw [List.append_nil]
  | c :: tok2, h, acc, hne => by
    have hc : pyIsSpace c = false := h c (List.mem_cons_self _ _)
    rw [splitWsAux, if_neg (by rw [hc]; exact Bool.false_ne_true)]
    rw [splitWsAux_token_nil tok2 (fun d hd => h d (List.mem_cons_of_mem _ hd))
          (c :: acc) (by simp)]
    simp

theorem splitWsAux_token_space :
    ∀ (tok : List Char), (∀ c ∈ tok, pyIsSpace c = false) →
    ∀ (s : Char), pyIsSpace s = true → ∀ (t2 : List Char) (acc : List Char),
    acc.reverse ++ tok ≠ [] →
    splitWsAux (tok ++ s :: t2) acc = (acc.reverse ++ tok) :: splitWsAux t2 []
  | [], _, s, hs, t2, acc, hne => by
    have hacc : acc ≠ [] := by
      intro h0
      exact hne (by rw [h0]; rfl)
    rw [List.nil_append, splitWsAux, if_pos (by rw [hs]),
        if_neg (by simpa [List.isEmpty_iff] using hacc), List.append_nil]
  | c :: tok2, h, s, hs, t2, acc, hne => by
    have hc : pyIsSpace c = false := h c (List.mem_cons_self _ _)
    rw [List.cons_append, splitWsAux, if_neg (by rw [hc]; exact Bool.false_ne_true)]
    rw [splitWsAux_token_space tok2 (fun d hd => h d (List.mem_cons_of_mem _ hd))
          s hs t2 (c :: acc) (by simp)]
    simp

theorem pySplitWs_token_nil (tok : List Char)
    (h : ∀ c ∈ tok, pyIsSpace c = false) (hne : tok ≠ []) :
    pySplitWs tok = [tok] := by
  have := splitWsAux_token_nil tok h [] (by simpa using hne)
  simpa [pySplitWs] using this

theorem pySplitWs_token_space (tok : List Char)
    (h : ∀ c ∈ tok, pyIsSpace c = false) (hne : tok ≠ []) (s : Char)
    (hs : pyIsSpace s = true) (t2 : List Char) :
    pySplitWs (tok ++ s :: t2) = tok :: pySplitWs t2 := by
  have := splitWsAux_token_space tok h s hs t2 [] (by simpa using hne)
  simpa [pySplitWs] using this

theorem drop7_import (x : List Char) : ("import ".data ++ x).drop 7 = x := rfl

theorem drop5_from (x : List Char) : ("from ".data ++ x).drop 5 = x := rfl

theorem import_not_isPre_from (y : List Char) :
    "import ".data.isPrefixOf ("from ".data ++ y) = false := rfl

theorem isProjectDependency_import_form (pf : List String) (M rest : String)
    (hM : M.data ≠ []) (hMch : ∀ c ∈ M.data, pyIsSpace c = false)
    (hrest : rest.data = [] ∨ ∃ s t2, rest.data = s :: t2 ∧ pyIsSpace s = true) :
    isProjectDependency pf ("import " ++ M ++ rest) =
      pf.contains (⟨firstDotSeg M.data⟩ : String) := by
  have hdata : ("import " ++ M ++ rest).data =
      "import ".data ++ (M.data ++ rest.data) := by
    rw [String.data_append, String.data_append, List.append_assoc]
  have hpre : "import ".data.isPrefixOf ("import " ++ M ++ rest).data = true := by
    rw [hdata]
    exact List.isPrefixOf_iff_prefix.mpr (List.prefix_append _ _)
  obtain ⟨tl, htl⟩ :
      ∃ tl, pySplitWs (("import " ++ M ++ rest).data.drop 7) = M.data :: tl := by
    rw [hdata, drop7_import]
    rcases hrest with h0 | ⟨s, t2, hrt, hs⟩
    · exact ⟨[], by rw [h0, List.append_nil, pySplitWs_token_nil M.data hMch hM]⟩
    · exact ⟨pySplitWs t2, by rw [hrt, pySplitWs_token_space M.data hMch hM s hs t2]⟩
  rw [isProjectDependency, if_pos hpre, htl]

theorem isProjectDependency_from_form (pf : List String) (P x : String)
    (hP : P.data ≠ []) (hPch : ∀ c ∈ P.data, pyIsSpace c = false) :
    isProjectDependency pf ("from " ++ P ++ " import " ++ x) =
      pf.contains (⟨firstDotSeg P.data⟩ : String) := by
  have hdata : ("from " ++ P ++ " import " ++ x).data =
      "from ".data ++ (P.data ++ (" import ".data ++ x.data)) := by
    rw [String.data_append, String.data_append, String.data_append]
    simp [List.append_assoc]
  have hnotimp :
      "import ".data.isPrefixOf ("from " ++ P ++ " import " ++ x).data = false := by
    rw [hdata, import_not_isPre_from]
  have hfrom : "from ".data.isPrefixOf ("from " ++ P ++ " import " ++ x).data = true := by
    rw [hdata]
    exact List.isPrefixOf_iff_prefix.mpr (List.prefix_append _ _)
  have hsplit : pySplitWs (("from " ++ P ++ " import " ++ x).data.drop 5) =
      P.data :: "import".data :: pySplitWs x.data := by
    rw [hdata, drop5_from]
    rw [show " import ".data ++ x.data = ' ' :: ("import ".data ++ x.data) from rfl]
    rw [pySplitWs_token_space P.data hPch hP ' ' rfl ("import ".data ++ x.data)]
    rw [show "import ".data ++ x.data = "import".data ++ ' ' :: x.data from rfl]
    rw [pySplitWs_token_space "import".data (by decide) (by decide) ' ' rfl x.data]
  rw [isProjectDependency, if_neg (by rw [hnotimp]; exact Bool.false_ne_true),
      if_pos hfrom, hsplit]
  show (if "import".data = "import".data then
          pf.contains (⟨firstDotSeg P.data⟩ : String) else false) =
    pf.contains (⟨firstDotSeg P.data⟩ : String)
  rw [if_pos rfl]

/-! ### Separator-split, strip and replace lemmas (for C6) -/

theorem splitChAux_no_sep (sep : Char) :
    ∀ (xs : List Char), sep ∉ xs → ∀ acc : List Char,
    splitChAux sep xs acc = [acc.reverse ++ xs]
  | [], _, acc => by rw [splitChAux, List.append_nil]
  | x :: xs2, hx, acc => by
    have hxs : x ≠ sep := fun he => hx (he ▸ List.mem_cons_self _ _)
    rw [splitChAux, if_neg hxs,
        splitChAux_no_sep sep xs2 (fun hm => hx (List.mem_cons_of_mem _ hm)) (x :: acc)]
    simp

theorem splitChAux_append (sep : Char) :
    ∀ (xs : List Char), sep ∉ xs → ∀ (ys acc : List Char),
    splitChAux sep (xs ++ sep :: ys) acc =
      (acc.reverse ++ xs) :: splitChAux sep ys []
  | [], _, ys, acc => by
    rw [List.nil_append, splitChAux, if_pos rfl, List.append_nil]
  | x :: xs2, hx, ys, acc => by
    have hxs : x ≠ sep := fun he => hx (he ▸ List.mem_cons_self _ _)
    rw [List.cons_append, splitChAux, if_neg hxs,
        splitChAux_append sep xs2 (fun hm => hx (List.mem_cons_of_mem _ hm)) ys (x :: acc)]
    simp

theorem pySplitChar_no_sep (sep : Char) (xs : List Char) (h : sep ∉ xs) :
    pySplitChar sep xs = [xs] := by
  have := splitChAux_no_sep sep xs h []
  simpa [pySplitChar] using this

theorem pySplitChar_append (sep : Char) (xs : List Char) (h : sep ∉ xs)
    (ys : List Char) :
    pySplitChar sep (xs ++ sep :: ys) = xs :: pySplitChar sep ys := by
  have := splitChAux_append sep xs h ys []
  simpa [pySplitChar] using this

theorem dropWhile_of_head_ne {α : Type} (p : α → Bool) :
    ∀ (l : List α), (∀ a as, l = a :: as → p a = false) → l.dropWhile p = l
  | [], _ => rfl
  | a :: as, h => by
    rw [List.dropWhile_cons, if_neg (by rw [h a as rfl]; exact Bool.false_ne_true)]

theorem pyStripChar_id (c : Char) (l : List Char)
    (hhead : ∀ a as, l = a :: as → a ≠ c)
    (hlast : ∀ a as, l = as ++ [a] → a ≠ c) :
    pyStripChar c l = l := by
  rw [pyStripChar]
  rw [dropWhile_of_head_ne _ l
        (fun a as he => by simpa using decide_eq_false (hhead a as he))]
  rw [dropWhile_of_head_ne _ l.reverse
        (fun a as he => by
          have : l = as.reverse ++ [a] := by
            have := congrArg List.reverse he
            simpa using this
          simpa using decide_eq_false (hlast a as.reverse this))]
  exact List.reverse_reverse l

/-- The four-character pattern `".git"` cannot straddle the boundary of
`n ++ ".git"`: a prefix match against `n ++ ".git"` for a nonempty `n`
shorter than four characters is impossible, and for a longer `n` it would
be an occurrence inside `n`. -/
theorem dotgit_not_isPre_cons (c : Char) (n2 : List Char)
    (h : ¬ (".git".data <:+: (c :: n2))) :
    ".git".data.isPrefixOf ((c :: n2) ++ ".git".data) = false := by
  match n2 with
  | [] => simp [List.isPrefixOf]
  | [b] => simp [List.isPrefixOf]
  | [b, d] => simp [List.isPrefixOf]
  | b :: d :: e :: rest =>
    by_contra hb
    have htrue : ".git".data.isPrefixOf ((c :: b :: d :: e :: rest) ++ ".git".data) = true :=
      Bool.not_eq_false _ |>.mp hb
    have hpre := List.isPrefixOf_iff_prefix.mp htrue
    simp only [List.cons_append] at hpre
    have hc : ".git".data = [c, b, d, e].take 4 ++ [] := by
      have := List.prefix_iff_eq_take.mp hpre
      simpa [List.take] using this
    simp [List.take] at hc
    obtain ⟨h1, h2, h3, h4⟩ := hc
    apply h
    have : ".git".data <+: (c :: b :: d :: e :: rest) := by
      rw [show ".git".data = [c, b, d, e] from by rw [← h1, ← h2, ← h3, ← h4]]
      exact ⟨rest, by simp⟩
    exact this.isInfix

theorem pyReplaceDelF_dotgit :
    ∀ (n : List Char), ¬ (".git".data <:+: n) →
    ∀ f : Nat, (n ++ ".git".data).length ≤ f →
    pyReplaceDelF ".git".data f (n ++ ".git".data) = n
  | [], _, f, hf => by
    obtain ⟨f1, rfl⟩ : ∃ f1, f = f1 + 1 := by
      cases f with
      | zero => simp at hf
      | succ f1 => exact ⟨f1, rfl⟩
    rw [List.nil_append]
    rw [show (".git".data : List Char) = '.' :: "git".data from rfl]
    rw [pyReplaceDelF, if_pos (by decide)]
    rw [show List.drop (".git".data.length - 1) "git".data = [] from rfl]
    rw [pyReplaceDelF]
  | c :: n2, h, f, hf => by
    obtain ⟨f1, rfl⟩ : ∃ f1, f = f1 + 1 := by
      cases f with
      | zero => simp at hf
      | succ f1 => exact ⟨f1, rfl⟩
    rw [List.cons_append, pyReplaceDelF,
        if_neg (by
          rw [show (c :: n2) ++ ".git".data = c :: (n2 ++ ".git".data) from rfl] at *
          rw [show c :: (n2 ++ ".git".data) = (c :: n2) ++ ".git".data from rfl]
          rw [dotgit_not_isPre_cons c n2 h]
          exact Bool.false_ne_true ∘ (by simp))]
    rw [pyReplaceDelF_dotgit n2
          (fun hi => h (List.infix_cons hi)) f1
          (by simp at hf ⊢; omega)]

theorem pyReplaceDel_dotgit (n : List Char) (h : ¬ (".git".data <:+: n)) :
    pyReplaceDel ".git".data (n ++ ".git".data) = n :=
  pyReplaceDelF_dotgit n h _ (Nat.le_refl _)

theorem head_of_cons_eq {α : Type} {x a : α} {l as : List α}
    (he : x :: l = a :: as) : a = x := by
  injection he with h1 _
  exact h1.symm

theorem parseRepoUrl_ssh (o r : String)
    (ho1 : o.data ≠ []) (ho2 : '/' ∉ o.data) (ho3 : ':' ∉ o.data)
    (hr2 : '/' ∉ r.data) (hr3 : ':' ∉ r.data)
    (hr4 : ¬ (".git".data <:+: r.data)) :
    parseRepoUrl ("git@github.com:" ++ o ++ "/" ++ r ++ ".git") = some (o, r) := by
  have hdata : ("git@github.com:" ++ o ++ "/" ++ r ++ ".git").data =
      "git@github.com".data ++ ':' :: (o.data ++ '/' :: (r.data ++ ".git".data)) := by
    rw [String.data_append, String.data_append, String.data_append,
        String.data_append]
    simp only [List.append_assoc]
    rfl
  have hpre : "git@github.com:".data.isPrefixOf
      ("git@github.com:" ++ o ++ "/" ++ r ++ ".git").data = true := by
    apply List.isPrefixOf_iff_prefix.mpr
    exact ⟨o.data ++ '/' :: (r.data ++ ".git".data), by rw [hdata]; rfl⟩
  have hnot2 : ':' ∉ o.data ++ '/' :: (r.data ++ ".git".data) := by
    intro hm
    rcases List.mem_append.mp hm with hm | hm
    · exact ho3 hm
    · rcases List.mem_cons.mp hm with hm | hm
      · exact absurd hm (by decide)
      · rcases List.mem_append.mp hm with hm | hm
        · exact hr3 hm
        · exact absurd hm (by decide)

  have hsplit : pySplitChar ':' ("git@github.com:" ++ o ++ "/" ++ r ++ ".git").data =
      ["git@github.com".data, o.data ++ '/' :: (r.data ++ ".git".data)] := by
    rw [hdata, pySplitChar_append ':' "git@github.com".data (by decide),
        pySplitChar_no_sep ':' _ hnot2]
  have hnot3 : '/' ∉ r.data ++ ".git".data := by
    intro hm
    rcases List.mem_append.mp hm with hm | hm
    · exact hr2 hm
    · exact absurd hm (by decide)
  have hparts : pySplitChar '/' (o.data ++ '/' :: (r.data ++ ".git".data)) =
      [o.data, r.data ++ ".git".data] := by
    rw [pySplitChar_append '/' o.data ho2, pySplitChar_no_sep '/' _ hnot3]
  rw [parseRepoUrl, if_pos hpre, hsplit]
  show (if (pySplitChar '/' (o.data ++ '/' :: (r.data ++ ".git".data))).length < 2
        then none
        else some
          ((⟨(pySplitChar '/' (o.data ++ '/' :: (r.data ++ ".git".data))).getD 0 []⟩ : String),
           (⟨pyReplaceDel ".git".data
              ((pySplitChar '/' (o.data ++ '/' :: (r.data ++ ".git".data))).getD 1 [])⟩ : String)))
      = some (o, r)
  rw [hparts, if_neg (by simp)]
  show some ((⟨o.data⟩ : String),
      (⟨pyReplaceDel ".git".data (r.data ++ ".git".data)⟩ : String)) = some (o, r)
  rw [pyReplaceDel_dotgit r.data hr4]

theorem last_of_concat_eq {α : Type} {a b : α} {as bs : List α}
    (he : as ++ [a] = bs ++ [b]) : a = b := by
  have h2 := congrArg List.getLast? he
  rw [List.getLast?_concat, List.getLast?_concat] at h2
  exact Option.some.inj h2

theorem parseRepoUrl_https (o r : String)
    (ho1 : o.data ≠ []) (ho2 : '/' ∉ o.data)
    (hr1 : r.data ≠ []) (hr2 : '/' ∉ r.data) :
    parseRepoUrl ("https://github.com/" ++ o ++ "/" ++ r) = some (o, r) := by
  have hdata : ("https://github.com/" ++ o ++ "/" ++ r).data =
      "https://github.com/".data ++ (o.data ++ '/' :: r.data) := by
    rw [String.data_append, String.data_append, String.data_append]
    simp only [List.append_assoc]
    rfl
  have hnpre : "git@github.com:".data.isPrefixOf
      ("https://github.com/" ++ o ++ "/" ++ r).data = false := by
    rw [hdata]
    rfl
  have hstrip : pyStripChar '/' ("https://github.com/" ++ o ++ "/" ++ r).data =
      ("https://github.com/" ++ o ++ "/" ++ r).data := by
    apply pyStripChar_id
    · intro a as he
      rw [hdata] at he
      have he2 : 'h' :: ("ttps://github.com/".data ++ (o.data ++ '/' :: r.data)) =
          a :: as := he
      rw [head_of_cons_eq he2]
      decide
    · intro a as he
      obtain ⟨rs, b, hrb⟩ : ∃ rs b, r.data = rs ++ [b] := by
        rcases List.eq_nil_or_concat r.data with h0 | ⟨rs, b, hrb⟩
        · exact absurd h0 hr1
        · exact ⟨rs, b, by simpa [List.concat_eq_append] using hrb⟩
      have hb : b ∈ r.data := by rw [hrb]; simp
      have hmy : ("https://github.com/" ++ o ++ "/" ++ r).data =
          (("https://github.com/".data ++ o.data ++ '/' :: rs)) ++ [b] := by
        rw [hdata, hrb]
        simp [List.append_assoc]
      have hab : a = b := last_of_concat_eq (he.symm.trans hmy)
      rw [hab]
      intro hc
      exact hr2 (hc ▸ hb)
  have hdataS : ("https://github.com/" ++ o ++ "/" ++ r).data =
      "https:".data ++ '/' :: ([] ++ '/' ::
        ("github.com".data ++ '/' :: (o.data ++ '/' :: r.data))) := by
    rw [hdata]
    rfl
  have hparts : pySplitChar '/' ("https://github.com/" ++ o ++ "/" ++ r).data =
      ["https:".data, [], "github.com".data, o.data, r.data] := by
    rw [hdataS, pySplitChar_append '/' "https:".data (by decide),
        pySplitChar_append '/' [] (by decide),
        pySplitChar_append '/' "github.com".data (by decide),
        pySplitChar_append '/' o.data ho2,
        pySplitChar_no_sep '/' r.data hr2]
  rw [parseRepoUrl, if_neg (by rw [hnpre]; exact Bool.false_ne_true),
      hstrip, hparts]
  rw [if_neg (by
    intro hcon
    rcases hcon with hcon | hcon
    · simp at hcon
    · exact hcon (by rfl))]
  rfl

/-- The Python `in` embedding agrees with list infix. -/
theorem infixB_iff : ∀ (pat l : List Char), infixB pat l = true ↔ pat <:+: l
  | pat, [] => by
    rw [infixB]
    constructor
    · intro h
      have h0 : pat = [] := by simpa [List.isEmpty_iff] using h
      simp [h0]
    · intro h
      have h0 : pat = [] := List.infix_nil.mp h
      simp [h0, List.isEmpty_iff]
  | pat, c :: rest => by
    rw [infixB, Bool.or_eq_true]
    constructor
    · rintro (h | h)
      · exact (List.isPrefixOf_iff_prefix.mp h).isInfix
      · exact List.infix_cons ((infixB_iff pat rest).mp h)
    · rintro ⟨s, t, hst⟩
      cases s with
      | nil =>
        left
        apply List.isPrefixOf_iff_prefix.mpr
        exact ⟨t, by simpa using hst⟩
      | cons a s2 =>
        right
        apply (infixB_iff pat rest).mpr
        have h2 : (a :: (s2 ++ pat ++ t)) = c :: rest := by simpa using hst
        injection h2 with _ h3
        exact ⟨s2, t, h3⟩

/-! ## Claim theorems -/

/-- C1: a raw `import M ...` statement is classified internal iff the first
dotted segment of `M` is a member of the module-path set, and a
`from P.Q import x` statement is classified internal iff the first dotted
segment of `P.Q` is a member; in particular, with a top-level module `pkg`
and no module `os` in the set, `import os` classifies external and
`from pkg.sub import x` classifies internal. -/
theorem c1_internal_iff_first_segment_in_module_set :
    (∀ (pf : List String) (M rest : String),
      M.data ≠ [] → (∀ c ∈ M.data, pyIsSpace c = false) →
      (rest.data = [] ∨ ∃ s t2, rest.data = s :: t2 ∧ pyIsSpace s = true) →
      (isProjectDependency pf ("import " ++ M ++ rest) = true ↔
        (⟨firstDotSeg M.data⟩ : String) ∈ pf)) ∧
    (∀ (pf : List String) (P x : String),
      P.data ≠ [] → (∀ c ∈ P.data, pyIsSpace c = false) →
      (isProjectDependency pf ("from " ++ P ++ " import " ++ x) = true ↔
        (⟨firstDotSeg P.data⟩ : String) ∈ pf)) ∧
    (∀ pf : List String, "pkg" ∈ pf → "os" ∉ pf →
      isProjectDependency pf "import os" = false ∧
      isProjectDependency pf "from pkg.sub import x" = true) := by
  refine ⟨?_, ?_, ?_⟩
  · intro pf M rest hM hMch hrest
    rw [isProjectDependency_import_form pf M rest hM hMch hrest]
    exact List.elem_iff
  · intro pf P x hP hPch
    rw [isProjectDependency_from_form pf P x hP hPch]
    exact List.elem_iff
  · intro pf hpkg hos
    constructor
    · have h1 : isProjectDependency pf "import os" = pf.contains "os" := rfl
      rw [h1]
      exact Bool.eq_false_iff.mpr (fun hb => hos (List.elem_iff.mp hb))
    · have h2 : isProjectDependency pf "from pkg.sub import x" = pf.contains "pkg" := rfl
      rw [h2]
      exact List.elem_iff.mpr hpkg

/-- C1 witness: the classification at concrete inputs — the spec's own
example project (module-path set containing `pkg` but not `os`), plus a
dotted bare import classified by its first segment. -/
theorem c1_internal_iff_first_segment_in_module_set_witness :
    isProjectDependency ["pkg"] "import os" = false ∧
    isProjectDependency ["pkg"] "from pkg.sub import x" = true ∧
    (isProjectDependency ["pkg"] ("import " ++ "pkg.sub" ++ " as q") = true ↔
      ("pkg" : String) ∈ ["pkg"]) :=
  ⟨(c1_internal_iff_first_segment_in_module_set.2.2 ["pkg"] (by decide) (by decide)).1,
   (c1_internal_iff_first_segment_in_module_set.2.2 ["pkg"] (by decide) (by decide)).2,
   c1_internal_iff_first_segment_in_module_set.1 ["pkg"] "pkg.sub" " as q"
     (by decide) (by decide) (Or.inr ⟨' ', "as q".data, rfl, rfl⟩)⟩

/-- C2: the depth-limited projection at depth `d` contains no node farther
than `d` edges from the root, and the projection agrees with the original
tree in the claim's sense: nodes strictly within the bound keep path,
directory flag, content and language with children in one-to-one
correspondence, and nodes exactly at the cutoff keep path, flag and
language but lose content and children (directories become empty shells,
files lose their content). -/
theorem c2_depth_projection_contract (t : FileNode) (d : Nat) :
    nodeDepth (getFileTree t (some d)) ≤ d ∧
    agreesUpTo d t (getFileTree t (some d)) = true := by
  rw [getFileTree]
  constructor
  · have h := nodeDepth_getTreeWithDepth_pair.1 t d 0
    rwa [Nat.sub_zero] at h
  · have h := agreesUpTo_getTreeWithDepth_pair.1 t d 0
    rwa [Nat.sub_zero] at h

/-- C4: requesting the file tree with no depth limit returns the stored
tree itself — the identity round trip of `get_file_tree(None)`. -/
theorem c4_unbounded_request_is_identity (t : FileNode) :
    getFileTree t none = t := rfl

/-- C10: a recorded import statement whose text begins with neither
`import ` nor `from ` — in particular a JavaScript/TypeScript `require(...)`
line — is never classified as a project-internal dependency, regardless of
the module-path set. -/
theorem c10_non_keyword_lines_never_internal
    (pf : List String) (line : String)
    (h1 : "import ".data.isPrefixOf line.data = false)
    (h2 : "from ".data.isPrefixOf line.data = false) :
    isProjectDependency pf line = false := by
  simp [isProjectDependency, h1, h2]

/-- C10 witness: the `require` line recorded by the JavaScript extractor is
classified external even when the required name is in the module-path set. -/
theorem c10_non_keyword_lines_never_internal_witness :
    isProjectDependency ["lodash"] "const x = require(\"lodash\")" = false ∧
    jsImportLines "const x = require(\"lodash\")" = ["const x = require(\"lodash\")"] :=
  ⟨c10_non_keyword_lines_never_internal ["lodash"] "const x = require(\"lodash\")"
     (by decide) (by decide), by decide⟩

/-- C5 counterexample: the locator `ftp://github.com/acme/widget` matches
neither of the specification's locator patterns, yet `load_repo_from_url`
accepts it and proceeds to the metadata fetch and the clone — the claimed
pre-network rejection of non-matching locators does not happen. -/
theorem c5_counterexample_nonmatching_locator_reaches_network :
    ¬ SpecSshForm "ftp://github.com/acme/widget" ∧
    ¬ SpecHttpsForm "ftp://github.com/acme/widget" ∧
    loadRepoFromUrl "ftp://github.com/acme/widget" =
      (LoadOutcome.attempted, [NetEffect.fetchMetadata, NetEffect.cloneRepo]) := by
  refine ⟨?_, ?_, by decide⟩
  · rintro ⟨h, o, r, -, -, -, heq⟩
    have h1 : ("ftp://github.com/acme/widget" : String).data.head? = some 'f' := rfl
    rw [heq] at h1
    have h2 : ∀ X : List Char, ("git@".data ++ X).head? = some 'g' := fun _ => rfl
    have h3 := h2 (h ++ ':' :: o ++ '/' :: r ++ ".git".data)
    exact absurd (h3.symm.trans h1) (by decide)
  · rintro ⟨h, o, r, -, -, -, heq⟩
    have h1 : ("ftp://github.com/acme/widget" : String).data.head? = some 'f' := rfl
    rw [heq] at h1
    have h2 : ∀ X : List Char, ("https://".data ++ X).head? = some 'h' := fun _ => rfl
    have h3 := h2 (h ++ '/' :: o ++ '/' :: r)
    exact absurd (h3.symm.trans h1) (by decide)

/-- C5 amended: every locator the parser rejects (the source's early
`return False` branches) fails before any network call: no metadata fetch
and no clone is attempted. -/
theorem c5_rejected_locator_fails_before_network (url : String)
    (h : parseRepoUrl url = none) :
    loadRepoFromUrl url = (LoadOutcome.invalidLocator, []) := by
  simp [loadRepoFromUrl, h]

/-- C5 witness: a malformed locator is rejected with no network effects. -/
theorem c5_rejected_locator_fails_before_network_witness :
    parseRepoUrl "not-a-url" = none ∧
    loadRepoFromUrl "not-a-url" = (LoadOutcome.invalidLocator, []) :=
  ⟨by decide, c5_rejected_locator_fails_before_network "not-a-url" (by decide)⟩

/-- C3: evaluation of the tree build on a workspace whose only entry is the
empty hidden directory `.foo`.  The walk still descends into the hidden
directory (the source filters hidden names from the appended children but
never prunes `os.walk`'s recursion), so `_get_or_create_node` re-creates
the hidden directory as a tree node: the root ends up with one child even
though it has zero non-hidden entries, and the hidden path component
`ws/.foo` appears in the built tree. -/
theorem c3_hidden_directory_node_resurrected :
    buildFileTree "ws" [FSEntry.dir ".foo" []] =
      FileNode.mk "ws" true (some [FileNode.mk "ws/.foo" true (some []) none none])
        none none ∧
    allPaths (buildFileTree "ws" [FSEntry.dir ".foo" []]) = ["ws", "ws/.foo"] :=
  ⟨rfl, rfl⟩

/-- C8: a file with zero recorded import statements — a missing key or an
empty recorded list — yields empty internal and external dependency lists,
not an error; and a file whose language has no registered extractor never
gains a key in the dependency map, so both its queries return empty lists. -/
theorem c8_absent_or_empty_records_yield_empty_lists :
    (∀ (m : List (String × List String)) (pf : List String) (p : String),
      m.lookup p = none ∨ m.lookup p = some [] →
      getFileDependencies m pf p = [] ∧ getFileThirdPartyDependencies m pf p = []) ∧
    (∀ (t : FileNode) (pf : List String) (p : String),
      (∀ n ∈ allNodes t,
        FileNode.path n = p → registeredLanguage (FileNode.language n) = false) →
      getFileDependencies (analyzeDependencies t) pf p = [] ∧
      getFileThirdPartyDependencies (analyzeDependencies t) pf p = []) := by
  constructor
  · intro m pf p h
    rcases h with h | h <;>
      simp [getFileDependencies, getFileThirdPartyDependencies, dictGetD, h]
  · intro t pf p h
    have hl : (analyzeDependencies t).lookup p = none := by
      have := lookup_analyzeTraverse t [] p h
      simpa [analyzeDependencies] using this
    simp [getFileDependencies, getFileThirdPartyDependencies, dictGetD, hl]

/-- C8 witness: a workspace consisting of one Ruby file (no registered
extractor): both dependency queries for it return the empty list. -/
theorem c8_absent_or_empty_records_yield_empty_lists_witness :
    getFileDependencies
      (analyzeDependencies
        (FileNode.mk "ws" true
          (some [FileNode.mk "ws/a.rb" false none (some "require x") (some "Ruby")])
          none none)) [] "ws/a.rb" = [] ∧
    getFileThirdPartyDependencies
      (analyzeDependencies
        (FileNode.mk "ws" true
          (some [FileNode.mk "ws/a.rb" false none (some "require x") (some "Ruby")])
          none none)) [] "ws/a.rb" = [] :=
  c8_absent_or_empty_records_yield_empty_lists.2
    (FileNode.mk "ws" true
      (some [FileNode.mk "ws/a.rb" false none (some "require x") (some "Ruby")])
      none none) [] "ws/a.rb" (by decide)

/-- Substitution at the `f.read()` level (the failure mode the `try` does
catch): every file node of a built tree carries a content value, and a
snapshot with raising reads builds exactly the same tree as the snapshot in
which each raising read returns the empty string.  This is the non-fatal
part of the file loop's error handling; the `open()` failure path is the
subject of `c7_open_failure_aborts_ingestion` below. -/
theorem read_level_failures_substituted
    (rootPath : String) (entries : List FSEntry) :
    filesHaveContent (buildFileTree rootPath entries) = true ∧
    buildFileTree rootPath entries = buildFileTree rootPath (fsReadOkList entries) := by
  constructor
  · rw [buildFileTree]
    apply filesHaveContent_foldl
    rw [filesHaveContent_mk]
    rfl
  · rw [buildFileTree, buildFileTree, osWalk, osWalk, osWalk_fsReadOk_pair.2,
        List.foldl_cons, List.foldl_cons]
    rw [show buildStep rootPath (FileNode.mk rootPath true (some []) none none)
          (rootPath, fsReadOkList entries) =
        buildStep rootPath (FileNode.mk rootPath true (some []) none none)
          (rootPath, entries) from buildStep_fsReadOk rootPath _ rootPath entries]
    exact (foldl_buildStep_fsReadOk rootPath (osWalkList rootPath entries) _).symm

/-- C7: the claim says a failure to read a file's content is non-fatal —
content is substituted and the walk continues instead of aborting the
ingestion.  The source contradicts this: `open()` sits outside the `try`
(only `f.read()` is inside), so on a workspace whose file `a.py` fails to
open, the exception escapes `_build_file_tree` and the ingestion aborts
(`Except.error`), with no substituted node and no continuation to the
readable sibling `b.js` — while the same workspace with the failure moved
inside the `try` (a raising `read()`) builds the full two-file tree with
the empty-string substitution, exactly as the claim describes. -/
theorem c7_open_failure_aborts_ingestion :
    buildFileTreeR "ws"
      [FSEntryR.file "a.py" ReadOutcome.openFails,
       FSEntryR.file "b.js" (ReadOutcome.ok "y")] = Except.error () ∧
    buildFileTreeR "ws"
      [FSEntryR.file "a.py" ReadOutcome.readFails,
       FSEntryR.file "b.js" (ReadOutcome.ok "y")] =
      Except.ok (FileNode.mk "ws" true
        (some [FileNode.mk "ws/a.py" false none (some "") (some "Python"),
               FileNode.mk "ws/b.js" false none (some "y") (some "JavaScript")])
        none none) :=
  ⟨rfl, rfl⟩

/-- C6 counterexample, two divergences from the spec's locator forms.
First, the host is hard-coded: `https://gitlab.com/acme/widget` is a
well-formed https-style locator in the specification's sense
(`https://host/owner/repo`), yet the parser rejects it.  Second, the name
is mangled when it contains `.git`: `git@github.com:acme/my.github.io.git`
is a well-formed ssh-style locator with host `github.com`, yet
`replace('.git', '')` deletes every `.git` occurrence from the final
segment, yielding the name `myhub.io` instead of `my.github.io`. -/
theorem c6_counterexample_spec_form_locators_diverge :
    (SpecHttpsForm "https://gitlab.com/acme/widget" ∧
      parseRepoUrl "https://gitlab.com/acme/widget" = none) ∧
    (SpecSshForm "git@github.com:acme/my.github.io.git" ∧
      parseRepoUrl "git@github.com:acme/my.github.io.git" =
        some ("acme", "myhub.io")) :=
  ⟨⟨⟨"gitlab.com".data, "acme".data, "widget".data,
      by decide, by decide, by decide, by decide⟩,
    by decide⟩,
   ⟨⟨"github.com".data, "acme".data, "my.github.io".data,
      by decide, by decide, by decide, by decide⟩,
    by decide⟩⟩

/-- C6 amended: for every locator of the ssh-style form
`git@github.com:owner/repo.git` or the https-style form
`https://github.com/owner/repo` — host fixed to `github.com`, with owner
and repo nonempty separator-free segments and repo free of `.git` as a
substring — parsing succeeds and yields the pair (owner, repo).  Both
restrictions are forced by `c6_counterexample_spec_form_locators_diverge`:
any other host is rejected, and a `.git` occurrence inside the repo
segment is deleted from the returned name. -/
theorem c6_github_locators_parse (owner repo : String)
    (h1 : owner.data ≠ []) (h2 : '/' ∉ owner.data) (h3 : ':' ∉ owner.data)
    (h4 : repo.data ≠ []) (h5 : '/' ∉ repo.data) (h6 : ':' ∉ repo.data)
    (h7 : ¬ (".git".data <:+: repo.data)) :
    parseRepoUrl ("git@github.com:" ++ owner ++ "/" ++ repo ++ ".git") =
      some (owner, repo) ∧
    parseRepoUrl ("https://github.com/" ++ owner ++ "/" ++ repo) =
      some (owner, repo) :=
  ⟨parseRepoUrl_ssh owner repo h1 h2 h3 h5 h6 h7,
   parseRepoUrl_https owner repo h1 h2 h4 h5⟩

/-- C6 witness: the spec's two concrete example locators both parse to
owner `acme`, name `widget`. -/
theorem c6_github_locators_parse_witness :
    parseRepoUrl "git@github.com:acme/widget.git" = some ("acme", "widget") ∧
    parseRepoUrl "https://github.com/acme/widget" = some ("acme", "widget") := by
  have h := c6_github_locators_parse "acme" "widget" (by decide) (by decide)
    (by decide) (by decide) (by decide) (by decide) (by decide)
  constructor
  · have h1 := h.1
    rw [show ("git@github.com:" ++ "acme" ++ "/" ++ "widget" ++ ".git" : String) =
        "git@github.com:acme/widget.git" from by decide] at h1
    exact h1
  · have h2 := h.2
    rw [show ("https://github.com/" ++ "acme" ++ "/" ++ "widget" : String) =
        "https://github.com/acme/widget" from by decide] at h2
    exact h2

/-! ### Rooted paths and navigation parts (for C9) -/

theorem rooted_refl (base : String) : Rooted base base [] := by
  simp [Rooted]

theorem rooted_child (base q : String) (qs : List String) (n : String)
    (h : Rooted base q qs) : Rooted base (q ++ "/" ++ n) (qs ++ [n]) := by
  unfold Rooted at *
  rw [String.data_append, String.data_append, h]
  simp [List.join_append, List.append_assoc]

theorem rooted_trans (base P q : String) (ps qs : List String)
    (h1 : Rooted base P ps) (h2 : Rooted P q qs) : Rooted base q (ps ++ qs) := by
  unfold Rooted at *
  rw [h2, h1]
  simp [List.join_append, List.append_assoc]

theorem rooted_pre (base q : String) (qs : List String) (h : Rooted base q qs) :
    base.data <+: q.data :=
  ⟨_, h.symm⟩

theorem pySplitChar_join_segs : ∀ (s1 : String) (qs : List String),
    '/' ∉ s1.data → (∀ s ∈ qs, '/' ∉ s.data) →
    pySplitChar '/' (s1.data ++ (qs.map (fun s => '/' :: s.data)).join) =
      s1.data :: qs.map (fun s => s.data)
  | s1, [], h1, _ => by
    simp [pySplitChar_no_sep '/' s1.data h1]
  | s1, s2 :: qs2, h1, h2 => by
    rw [List.map_cons]
    rw [show ((('/' :: s2.data) :: (qs2.map (fun s => '/' :: s.data))).join) =
        '/' :: (s2.data ++ (qs2.map (fun s => '/' :: s.data)).join) from rfl]
    rw [pySplitChar_append '/' s1.data h1]
    rw [pySplitChar_join_segs s2 qs2 (h2 s2 (by simp)) (fun s hs => h2 s (by simp [hs]))]
    simp

theorem pathParts_of_rooted (base q : String) (qs : List String)
    (h : Rooted base q qs) (hv : ∀ s ∈ qs, s.data ≠ [] ∧ '/' ∉ s.data) :
    pathParts base q = qs := by
  match qs with
  | [] =>
    have hqb : q = base := by
      apply String.ext
      simpa [Rooted] using h
    rw [pathParts, if_pos hqb]
  | s1 :: qs2 =>
    have hq : q.data = (base.data ++ ['/']) ++
        (s1.data ++ (qs2.map (fun s => '/' :: s.data)).join) := by
      rw [h]
      simp [List.append_assoc]
    have hne : q ≠ base := by
      intro he
      have h2 := hq
      rw [he] at h2
      have hlen := congrArg List.length h2
      simp at hlen
    rw [pathParts, if_neg hne, relParts, dropPre,
        if_pos (List.isPrefixOf_iff_prefix.mpr ⟨_, hq.symm⟩)]
    rw [hq, List.drop_left]
    rw [pySplitChar_join_segs s1 qs2 (hv s1 (by simp)).2
          (fun s hs => (hv s (by simp [hs])).2)]
    have hco : ((fun (l : List Char) => (⟨l⟩ : String)) ∘
        (fun (s : String) => s.data)) = id := funext (fun s => rfl)
    simp [List.map_map, hco]

theorem validName_spec (n : String) (h : validName n = true) :
    n.data ≠ [] ∧ '/' ∉ n.data ∧ n ≠ "." ∧ n ≠ ".." := by
  simp only [validName, Bool.and_eq_true, Bool.not_eq_true'] at h
  refine ⟨?_, ?_, ?_, ?_⟩
  · simpa [List.isEmpty_iff] using h.1.1.1
  · intro hm
    have h2 : n.data.contains '/' = true := List.elem_iff.mpr hm
    exact absurd (h.1.1.2 ▸ h2) (by decide)
  · simpa using h.1.2
  · simpa using h.2

theorem validFS_cons (e : FSEntry) (es : List FSEntry)
    (h : validFS (e :: es) = true) :
    validFSEntry e = true ∧ (es.any (fun x => x.name = e.name)) = false ∧
    validFS es = true := by
  rw [validFS] at h
  simp only [Bool.and_eq_true, Bool.not_eq_true'] at h
  exact ⟨h.1.1, h.1.2, h.2⟩

theorem validFSEntry_dir (n : String) (es : List FSEntry)
    (h : validFSEntry (.dir n es) = true) :
    validName n = true ∧ validFS es = true := by
  rw [validFSEntry] at h
  simpa using h

theorem osWalk_shape_pair :
    (∀ (e : FSEntry), ∀ (Q : String), validFSEntry e = true →
      ∀ st ∈ osWalkEntry Q e, ∃ qs : List String, qs ≠ [] ∧ Rooted Q st.1 qs ∧
        (∀ s ∈ qs, validName s = true)) ∧
    (∀ (es : List FSEntry), ∀ (Q : String), validFS es = true →
      ∀ st ∈ osWalkList Q es, ∃ qs : List String, qs ≠ [] ∧ Rooted Q st.1 qs ∧
        (∀ s ∈ qs, validName s = true)) := by
  apply FSEntry.mutualInductionE
  · intro n c Q _ st hst
    rw [osWalkEntry] at hst
    exact absurd hst (List.not_mem_nil st)
  · intro n es ih Q hv st hst
    obtain ⟨hn, hes⟩ := validFSEntry_dir n es hv
    rw [osWalkEntry] at hst
    rcases List.mem_cons.mp hst with hst | hst
    · refine ⟨[n], by simp, ?_, ?_⟩
      · rw [hst]
        simpa using rooted_child Q Q [] n (rooted_refl Q)
      · intro s hs
        rw [List.mem_singleton.mp hs]
        exact hn
    · obtain ⟨qs, hne, hroot, hval⟩ := ih (Q ++ "/" ++ n) hes st hst
      refine ⟨n :: qs, by simp, ?_, ?_⟩
      · have h1 : Rooted Q (Q ++ "/" ++ n) [n] := by
          simpa using rooted_child Q Q [] n (rooted_refl Q)
        simpa using rooted_trans Q (Q ++ "/" ++ n) st.1 [n] qs h1 hroot
      · intro s hs
        rcases List.mem_cons.mp hs with hs | hs
        · rw [hs]; exact hn
        · exact hval s hs
  · intro Q _ st hst
    rw [osWalkList] at hst
    exact absurd hst (List.not_mem_nil st)
  · intro e es ihe ihes Q hv st hst
    obtain ⟨he, _, hes⟩ := validFS_cons e es hv
    rw [osWalkList] at hst
    rcases List.mem_append.mp hst with hst | hst
    · exact ihe Q he st hst
    · exact ihes Q hes st hst

theorem data_slash (P n : String) :
    (P ++ "/" ++ n).data = P.data ++ '/' :: n.data := by
  rw [String.data_append, String.data_append]
  rw [show ("/" : String).data = ['/'] from rfl, List.append_assoc]
  rfl

theorem splitChAux_ne_nil (sep : Char) :
    ∀ (l acc : List Char), splitChAux sep l acc ≠ []
  | [], acc => by rw [splitChAux]; simp
  | c :: rest, acc => by
    rw [splitChAux]
    by_cases hc : c = sep
    · rw [if_pos hc]; simp
    · rw [if_neg hc]; exact splitChAux_ne_nil sep rest (c :: acc)

theorem splitChAux_getLastD (sep : Char) (m : List Char) (hm : sep ∉ m) :
    ∀ (L acc : List Char),
    (splitChAux sep (L ++ sep :: m) acc).getLastD [] = m
  | [], acc => by
    rw [List.nil_append, splitChAux, if_pos rfl, splitChAux_no_sep sep m hm []]
    simp
  | c :: L2, acc => by
    rw [List.cons_append, splitChAux]
    by_cases hc : c = sep
    · rw [if_pos hc]
      obtain ⟨s0, S2, hS⟩ :=
        List.exists_cons_of_ne_nil (splitChAux_ne_nil sep (L2 ++ sep :: m) [])
      have h2 := splitChAux_getLastD sep m hm L2 []
      rw [hS] at h2 ⊢
      rw [List.getLastD_cons] at h2
      rw [List.getLastD_cons, List.getLastD_cons]
      exact h2
    · rw [if_neg hc]
      exact splitChAux_getLastD sep m hm L2 (c :: acc)

theorem pyBasename_concat (L m : List Char) (hm : '/' ∉ m) :
    pyBasename (L ++ '/' :: m) = m := by
  rw [pyBasename, pySplitChar]
  exact splitChAux_getLastD '/' m hm L []

theorem pyBasename_node (P n : String) (hn : '/' ∉ n.data) :
    pyBasename (P ++ "/" ++ n).data = n.data := by
  rw [data_slash]
  exact pyBasename_concat P.data n.data hn

theorem infixB_extend (Q n : String)
    (h : infixB ".git".data Q.data = true) :
    infixB ".git".data (Q ++ "/" ++ n).data = true := by
  rw [infixB_iff] at h ⊢
  rw [data_slash]
  exact h.trans (List.prefix_append Q.data ('/' :: n.data)).isInfix

theorem foldl_skip_pair :
    (∀ (e : FSEntry), ∀ (Q base : String) (t : FileNode),
      infixB ".git".data Q.data = true →
      List.foldl (buildStep base) t (osWalkEntry Q e) = t) ∧
    (∀ (es : List FSEntry), ∀ (Q base : String) (t : FileNode),
      infixB ".git".data Q.data = true →
      List.foldl (buildStep base) t (osWalkList Q es) = t) := by
  apply FSEntry.mutualInductionE
  · intro n c Q base t _
    rw [osWalkEntry]
    rfl
  · intro n es ih Q base t hQ
    rw [osWalkEntry, List.foldl_cons]
    have hstep : buildStep base t (Q ++ "/" ++ n, es) = t := by
      rw [buildStep, if_pos (infixB_extend Q n hQ)]
    rw [hstep]
    exact ih (Q ++ "/" ++ n) base t (infixB_extend Q n hQ)
  · intro Q base t _
    rw [osWalkList]
    rfl
  · intro e es ihe ihes Q base t hQ
    rw [osWalkList, List.foldl_append, ihe Q base t hQ]
    exact ihes Q base t hQ

theorem scanFind_eq_some (part : String) (k : FileNode → Option FileNode) :
    ∀ (cl : List FileNode) (nd : FileNode), scanFind part k cl = some nd →
    ∃ pre x suf, cl = pre ++ x :: suf ∧
      (∀ y ∈ pre, ¬(pyBasename y.path.data = part.data ∧ y.is_dir = true)) ∧
      (pyBasename x.path.data = part.data ∧ x.is_dir = true) ∧
      k x = some nd
  | [], nd, h => by rw [scanFind] at h; exact absurd h (by simp)
  | x :: xs, nd, h => by
    rw [scanFind] at h
    by_cases hc : pyBasename x.path.data = part.data ∧ x.is_dir = true
    · rw [if_pos hc] at h
      exact ⟨[], x, xs, rfl, by simp, hc, h⟩
    · rw [if_neg hc] at h
      obtain ⟨pre, y, suf, hcl, hpre, hy, hk⟩ := scanFind_eq_some part k xs nd h
      refine ⟨x :: pre, y, suf, by rw [hcl]; rfl, ?_, hy, hk⟩
      intro z hz
      rcases List.mem_cons.mp hz with hz | hz
      · rw [hz]; exact hc
      · exact hpre z hz

theorem scanFind_found (part : String) (k : FileNode → Option FileNode) :
    ∀ (pre : List FileNode) (x : FileNode) (suf : List FileNode),
    (∀ y ∈ pre, ¬(pyBasename y.path.data = part.data ∧ y.is_dir = true)) →
    (pyBasename x.path.data = part.data ∧ x.is_dir = true) →
    scanFind part k (pre ++ x :: suf) = k x
  | [], x, suf, _, hx => by rw [List.nil_append, scanFind, if_pos hx]
  | y :: pre2, x, suf, hpre, hx => by
    rw [List.cons_append, scanFind, if_neg (hpre y (List.mem_cons_self y pre2))]
    exact scanFind_found part k pre2 x suf
      (fun z hz => hpre z (List.mem_cons_of_mem y hz)) hx

theorem scanLevel_found (pp part : String) (k : FileNode → FileNode) :
    ∀ (pre : List FileNode) (x : FileNode) (suf : List FileNode),
    (∀ y ∈ pre, ¬(pyBasename y.path.data = part.data ∧ y.is_dir = true)) →
    (pyBasename x.path.data = part.data ∧ x.is_dir = true) →
    scanLevel pp part k (pre ++ x :: suf) = pre ++ k x :: suf
  | [], x, suf, _, hx => by rw [List.nil_append, scanLevel, if_pos hx]; rfl
  | y :: pre2, x, suf, hpre, hx => by
    rw [List.cons_append, scanLevel, if_neg (hpre y (List.mem_cons_self y pre2))]
    rw [scanLevel_found pp part k pre2 x suf
      (fun z hz => hpre z (List.mem_cons_of_mem y hz)) hx]
    rfl

theorem scanReplace_found (part : String) (k : FileNode → FileNode) :
    ∀ (pre : List FileNode) (x : FileNode) (suf : List FileNode),
    (∀ y ∈ pre, ¬(pyBasename y.path.data = part.data ∧ y.is_dir = true)) →
    (pyBasename x.path.data = part.data ∧ x.is_dir = true) →
    scanReplace part k (pre ++ x :: suf) = pre ++ k x :: suf
  | [], x, suf, _, hx => by rw [List.nil_append, scanReplace, if_pos hx]; rfl
  | y :: pre2, x, suf, hpre, hx => by
    rw [List.cons_append, scanReplace, if_neg (hpre y (List.mem_cons_self y pre2))]
    rw [scanReplace_found part k pre2 x suf
      (fun z hz => hpre z (List.mem_cons_of_mem y hz)) hx]
    rfl

theorem scanFind_no_match (part : String) (k : FileNode → Option FileNode) :
    ∀ (cl : List FileNode),
    (∀ y ∈ cl, ¬(pyBasename y.path.data = part.data ∧ y.is_dir = true)) →
    scanFind part k cl = none
  | [], _ => by rw [scanFind]
  | x :: xs, h => by
    rw [scanFind, if_neg (h x (List.mem_cons_self x xs))]
    exact scanFind_no_match part k xs (fun z hz => h z (List.mem_cons_of_mem x hz))

theorem scanLevel_no_match (pp part : String) (k : FileNode → FileNode) :
    ∀ (cl : List FileNode),
    (∀ y ∈ cl, ¬(pyBasename y.path.data = part.data ∧ y.is_dir = true)) →
    scanLevel pp part k cl =
      cl ++ [k (.mk (pp ++ "/" ++ part) true (some []) none none)]
  | [], _ => by rw [scanLevel]; rfl
  | x :: xs, h => by
    rw [scanLevel, if_neg (h x (List.mem_cons_self x xs))]
    rw [scanLevel_no_match pp part k xs
      (fun z hz => h z (List.mem_cons_of_mem x hz))]
    rfl

theorem scanReplace_no_match (part : String) (k : FileNode → FileNode) :
    ∀ (cl : List FileNode),
    (∀ y ∈ cl, ¬(pyBasename y.path.data = part.data ∧ y.is_dir = true)) →
    scanReplace part k cl = cl
  | [], _ => by rw [scanReplace]
  | x :: xs, h => by
    rw [scanReplace, if_neg (h x (List.mem_cons_self x xs))]
    rw [scanReplace_no_match part k xs
      (fun z hz => h z (List.mem_cons_of_mem x hz))]

theorem scanFind_congr (part : String) (k1 k2 : FileNode → Option FileNode)
    (hk : ∀ x, k1 x = k2 x) :
    ∀ (cl : List FileNode), scanFind part k1 cl = scanFind part k2 cl
  | [] => by rw [scanFind, scanFind]
  | x :: xs => by
    rw [scanFind, scanFind]
    by_cases hc : pyBasename x.path.data = part.data ∧ x.is_dir = true
    · rw [if_pos hc, if_pos hc, hk x]
    · rw [if_neg hc, if_neg hc]
      exact scanFind_congr part k1 k2 hk xs

theorem scanFind_bind (part : String) (k : FileNode → Option FileNode)
    (g : FileNode → Option FileNode) :
    ∀ (cl : List FileNode),
    scanFind part (fun x => (k x).bind g) cl = (scanFind part k cl).bind g
  | [] => by rw [scanFind, scanFind]; rfl
  | x :: xs => by
    rw [scanFind, scanFind]
    by_cases hc : pyBasename x.path.data = part.data ∧ x.is_dir = true
    · rw [if_pos hc, if_pos hc]
    · rw [if_neg hc, if_neg hc]
      exact scanFind_bind part k g xs

theorem getNodeAt?_append :
    ∀ (ps : List String) (qs : List String) (t : FileNode),
    getNodeAt? t (ps ++ qs) = (getNodeAt? t ps).bind (fun nd => getNodeAt? nd qs)
  | [], qs, t => by rw [List.nil_append, getNodeAt?]; rfl
  | part :: rest, qs, .mk p d ch c l => by
    rw [List.cons_append, getNodeAt?, getNodeAt?]
    rw [scanFind_congr part _ (fun x => (getNodeAt? x rest).bind (fun nd => getNodeAt? nd qs))
      (fun x => getNodeAt?_append rest qs x)]
    exact scanFind_bind part (fun x => getNodeAt? x rest) (fun nd => getNodeAt? nd qs)
      (ch.getD [])

theorem gOCA_split :
    ∀ (ps qs : List String) (kids : List FileNode) (t nd : FileNode),
    getNodeAt? t ps = some nd → (∀ s ∈ ps, s ≠ ".") →
    getOrCreateAppend (ps ++ qs) kids t = setNodeAt t ps (getOrCreateAppend qs kids nd)
  | [], qs, kids, t, nd, h, _ => by
    rw [getNodeAt?] at h
    rw [List.nil_append, Option.some.inj h]
    rfl
  | part :: rest, qs, kids, .mk p d ch c l, nd, h, hdot => by
    rw [getNodeAt?] at h
    obtain ⟨pre, x, suf, hcl, hpre, hx, hk⟩ :=
      scanFind_eq_some part (fun y => getNodeAt? y rest) (ch.getD []) nd h
    have hpd : ¬ part = "." := hdot part (List.mem_cons_self part rest)
    rw [List.cons_append, getOrCreateAppend, if_neg hpd, setNodeAt, hcl,
        scanLevel_found p part (fun y => getOrCreateAppend (rest ++ qs) kids y)
          pre x suf hpre hx,
        scanReplace_found part (fun y => setNodeAt y rest (getOrCreateAppend qs kids nd))
          pre x suf hpre hx,
        gOCA_split rest qs kids x nd hk
          (fun s hs => hdot s (List.mem_cons_of_mem part hs))]

theorem getNodeAt?_setNodeAt :
    ∀ (ps : List String) (t nd r : FileNode),
    getNodeAt? t ps = some nd → r.path = nd.path → r.is_dir = nd.is_dir →
    getNodeAt? (setNodeAt t ps r) ps = some r
  | [], t, nd, r, _, _, _ => by rw [setNodeAt, getNodeAt?]
  | part :: rest, .mk p d ch c l, nd, r, h, hp, hd => by
    rw [getNodeAt?] at h
    obtain ⟨pre, x, suf, hcl, hpre, hx, hk⟩ :=
      scanFind_eq_some part (fun y => getNodeAt? y rest) (ch.getD []) nd h
    rw [setNodeAt, hcl,
        scanReplace_found part (fun y => setNodeAt y rest r) pre x suf hpre hx,
        getNodeAt?]
    have hmatch : pyBasename (setNodeAt x rest r).path.data = part.data ∧
        (setNodeAt x rest r).is_dir = true := by
      cases rest with
      | nil =>
        rw [getNodeAt?] at hk
        have hxnd : x = nd := Option.some.inj hk
        rw [setNodeAt]
        exact ⟨by rw [hp, ← hxnd]; exact hx.1, by rw [hd, ← hxnd]; exact hx.2⟩
      | cons p2 r2 =>
        cases x with
        | mk px dx chx cx lx =>
          rw [setNodeAt]
          exact hx
    rw [show ((some (pre ++ setNodeAt x rest r :: suf) : Option (List FileNode)).getD []) =
          pre ++ setNodeAt x rest r :: suf from rfl,
        scanFind_found part (fun y => getNodeAt? y rest) pre (setNodeAt x rest r) suf
          hpre hmatch]
    exact getNodeAt?_setNodeAt rest x nd r hk hp hd

theorem setNodeAt_setNodeAt :
    ∀ (ps : List String) (t nd a b : FileNode),
    getNodeAt? t ps = some nd → a.path = nd.path → a.is_dir = nd.is_dir →
    setNodeAt (setNodeAt t ps a) ps b = setNodeAt t ps b
  | [], _, _, _, _, _, _, _ => rfl
  | part :: rest, .mk p d ch c l, nd, a, b, h, hp, hd => by
    rw [getNodeAt?] at h
    obtain ⟨pre, x, suf, hcl, hpre, hx, hk⟩ :=
      scanFind_eq_some part (fun y => getNodeAt? y rest) (ch.getD []) nd h
    have hmatch : pyBasename (setNodeAt x rest a).path.data = part.data ∧
        (setNodeAt x rest a).is_dir = true := by
      cases rest with
      | nil =>
        rw [getNodeAt?] at hk
        have hxnd : x = nd := Option.some.inj hk
        rw [setNodeAt]
        exact ⟨by rw [hp, ← hxnd]; exact hx.1, by rw [hd, ← hxnd]; exact hx.2⟩
      | cons p2 r2 =>
        cases x with
        | mk px dx chx cx lx =>
          rw [setNodeAt]
          exact hx
    rw [setNodeAt, hcl,
        scanReplace_found part (fun y => setNodeAt y rest a) pre x suf hpre hx,
        setNodeAt, setNodeAt, hcl,
        scanReplace_found part (fun y => setNodeAt y rest b) pre x suf hpre hx,
        show ((some (pre ++ setNodeAt x rest a :: suf) : Option (List FileNode)).getD []) =
          pre ++ setNodeAt x rest a :: suf from rfl,
        scanReplace_found part (fun y => setNodeAt y rest b) pre (setNodeAt x rest a) suf
          hpre hmatch,
        setNodeAt_setNodeAt rest x nd a b hk hp hd]

theorem setNodeAt_getNodeAt :
    ∀ (ps : List String) (t nd : FileNode),
    getNodeAt? t ps = some nd → setNodeAt t ps nd = t
  | [], t, nd, h => by
    rw [getNodeAt?] at h
    exact (Option.some.inj h).symm
  | part :: rest, .mk p d ch c l, nd, h => by
    rw [getNodeAt?] at h
    obtain ⟨pre, x, suf, hcl, hpre, hx, hk⟩ :=
      scanFind_eq_some part (fun y => getNodeAt? y rest) (ch.getD []) nd h
    rw [setNodeAt, hcl,
        scanReplace_found part (fun y => setNodeAt y rest nd) pre x suf hpre hx,
        setNodeAt_getNodeAt rest x nd hk]
    cases ch with
    | none => simp at hcl
    | some cl =>
      rw [show ((some cl : Option (List FileNode)).getD []) = cl from rfl] at hcl
      rw [hcl]

theorem setNodeAt_append :
    ∀ (ps qs : List String) (t nd r : FileNode),
    getNodeAt? t ps = some nd →
    setNodeAt t (ps ++ qs) r = setNodeAt t ps (setNodeAt nd qs r)
  | [], qs, t, nd, r, h => by
    rw [getNodeAt?] at h
    rw [List.nil_append, Option.some.inj h]
    rfl
  | part :: rest, qs, .mk p d ch c l, nd, r, h => by
    rw [getNodeAt?] at h
    obtain ⟨pre, x, suf, hcl, hpre, hx, hk⟩ :=
      scanFind_eq_some part (fun y => getNodeAt? y rest) (ch.getD []) nd h
    rw [List.cons_append, setNodeAt, setNodeAt, hcl,
        scanReplace_found part (fun y => setNodeAt y (rest ++ qs) r) pre x suf hpre hx,
        scanReplace_found part (fun y => setNodeAt y rest (setNodeAt nd qs r))
          pre x suf hpre hx,
        setNodeAt_append rest qs x nd r hk]

theorem validFSEntry_name (e : FSEntry) (h : validFSEntry e = true) :
    validName e.name = true := by
  cases e with
  | file n c => rw [validFSEntry] at h; exact h
  | dir n es =>
    rw [validFSEntry] at h
    simp only [Bool.and_eq_true] at h
    exact h.1

theorem validFS_mem : ∀ (es : List FSEntry), validFS es = true →
    ∀ e ∈ es, validFSEntry e = true
  | [], _, e, he => absurd he (List.not_mem_nil e)
  | x :: xs, h, e, he => by
    obtain ⟨hx, _, hxs⟩ := validFS_cons x xs h
    rcases List.mem_cons.mp he with he | he
    · rw [he]; exact hx
    · exact validFS_mem xs hxs e he

theorem validFS_split : ∀ (xs : List FSEntry) (y : FSEntry) (zs : List FSEntry),
    validFS (xs ++ y :: zs) = true →
    (∀ x ∈ xs, ¬ x.name = y.name) ∧ (∀ z ∈ zs, ¬ z.name = y.name)
  | [], y, zs, h => by
    obtain ⟨_, hany, _⟩ := validFS_cons y zs h
    refine ⟨by simp, ?_⟩
    intro z hz
    rw [List.any_eq_false] at hany
    simpa using hany z hz
  | x :: xs, y, zs, h => by
    obtain ⟨_, hany, hrest⟩ := validFS_cons x (xs ++ y :: zs) h
    obtain ⟨h1, h2⟩ := validFS_split xs y zs hrest
    refine ⟨?_, h2⟩
    intro w hw
    rcases List.mem_cons.mp hw with hw | hw
    · rw [List.any_eq_false] at hany
      have := hany y (by simp)
      rw [hw]
      intro he
      rw [he] at this
      simp at this
    · exact h1 w hw

theorem validFS_sep (es : List FSEntry) (h : validFS es = true) :
    ∀ x ∈ es, '/' ∉ x.name.data := fun x hx =>
  (validName_spec x.name (validFSEntry_name x (validFS_mem es h x hx))).2.1

theorem dirKidsOf_nil (P : String) : dirKidsOf P [] = [] := rfl

theorem dirKidsOf_cons_file (P n : String) (c : Option String)
    (rest : List FSEntry) :
    dirKidsOf P (.file n c :: rest) = dirKidsOf P rest := by
  simp [dirKidsOf, List.filterMap_cons]

theorem dirKidsOf_cons_dir_hidden (P n : String) (es2 rest : List FSEntry)
    (hh : liHidden n = true) :
    dirKidsOf P (.dir n es2 :: rest) = dirKidsOf P rest := by
  simp [dirKidsOf, List.filterMap_cons, hh]

theorem dirKidsOf_cons_dir (P n : String) (es2 rest : List FSEntry)
    (hh : liHidden n = false) :
    dirKidsOf P (.dir n es2 :: rest) =
      .mk (P ++ "/" ++ n) true (some []) none none :: dirKidsOf P rest := by
  simp [dirKidsOf, List.filterMap_cons, hh]

theorem fileKidsOf_nil (P : String) : fileKidsOf P [] = [] := rfl

theorem fileKidsOf_cons_dir (P n : String) (es2 rest : List FSEntry) :
    fileKidsOf P (.dir n es2 :: rest) = fileKidsOf P rest := by
  simp [fileKidsOf, List.filterMap_cons]

theorem fileKidsOf_cons_file_hidden (P n : String) (c : Option String)
    (rest : List FSEntry) (hh : liHidden n = true) :
    fileKidsOf P (.file n c :: rest) = fileKidsOf P rest := by
  simp [fileKidsOf, List.filterMap_cons, hh]

theorem fileKidsOf_cons_file (P n : String) (c : Option String)
    (rest : List FSEntry) (hh : liHidden n = false) :
    fileKidsOf P (.file n c :: rest) =
      .mk (P ++ "/" ++ n) false none (some (c.getD ""))
        (some (detectLanguage (P ++ "/" ++ n))) :: fileKidsOf P rest := by
  simp [fileKidsOf, List.filterMap_cons, hh]

theorem mem_dirKidsOf (P : String) :
    ∀ (es : List FSEntry) (y : FileNode), y ∈ dirKidsOf P es →
    ∃ n es2, (FSEntry.dir n es2) ∈ es ∧ liHidden n = false ∧
      y = .mk (P ++ "/" ++ n) true (some []) none none
  | [], y, hy => by rw [dirKidsOf_nil] at hy; exact absurd hy (List.not_mem_nil y)
  | .file n c :: rest, y, hy => by
    rw [dirKidsOf_cons_file] at hy
    obtain ⟨m, es2, hmem, hh, he⟩ := mem_dirKidsOf P rest y hy
    exact ⟨m, es2, List.mem_cons_of_mem _ hmem, hh, he⟩
  | .dir n es2 :: rest, y, hy => by
    by_cases hh : liHidden n = true
    · rw [dirKidsOf_cons_dir_hidden P n es2 rest hh] at hy
      obtain ⟨m, es3, hmem, hh2, he⟩ := mem_dirKidsOf P rest y hy
      exact ⟨m, es3, List.mem_cons_of_mem _ hmem, hh2, he⟩
    · rw [dirKidsOf_cons_dir P n es2 rest (by simpa using hh)] at hy
      rcases List.mem_cons.mp hy with hy | hy
      · exact ⟨n, es2, List.mem_cons_self _ _, by simpa using hh, hy⟩
      · obtain ⟨m, es3, hmem, hh2, he⟩ := mem_dirKidsOf P rest y hy
        exact ⟨m, es3, List.mem_cons_of_mem _ hmem, hh2, he⟩

theorem mem_fileKidsOf (P : String) :
    ∀ (es : List FSEntry) (y : FileNode), y ∈ fileKidsOf P es →
    ∃ n c, (FSEntry.file n c) ∈ es ∧ liHidden n = false ∧
      y = .mk (P ++ "/" ++ n) false none (some (c.getD ""))
            (some (detectLanguage (P ++ "/" ++ n)))
  | [], y, hy => by rw [fileKidsOf_nil] at hy; exact absurd hy (List.not_mem_nil y)
  | .dir n es2 :: rest, y, hy => by
    rw [fileKidsOf_cons_dir] at hy
    obtain ⟨m, c, hmem, hh, he⟩ := mem_fileKidsOf P rest y hy
    exact ⟨m, c, List.mem_cons_of_mem _ hmem, hh, he⟩
  | .file n c :: rest, y, hy => by
    by_cases hh : liHidden n = true
    · rw [fileKidsOf_cons_file_hidden P n c rest hh] at hy
      obtain ⟨m, c2, hmem, hh2, he⟩ := mem_fileKidsOf P rest y hy
      exact ⟨m, c2, List.mem_cons_of_mem _ hmem, hh2, he⟩
    · rw [fileKidsOf_cons_file P n c rest (by simpa using hh)] at hy
      rcases List.mem_cons.mp hy with hy | hy
      · exact ⟨n, c, List.mem_cons_self _ _, by simpa using hh, hy⟩
      · obtain ⟨m, c2, hmem, hh2, he⟩ := mem_fileKidsOf P rest y hy
        exact ⟨m, c2, List.mem_cons_of_mem _ hmem, hh2, he⟩

theorem mem_expDirKids (P : String) :
    ∀ (es : List FSEntry) (y : FileNode), y ∈ expDirKids P es →
    ∃ n es2, (FSEntry.dir n es2) ∈ es ∧ liHidden n = false ∧
      y.path = P ++ "/" ++ n ∧ y.is_dir = true
  | [], y, hy => by rw [expDirKids] at hy; exact absurd hy (List.not_mem_nil y)
  | .file n c :: rest, y, hy => by
    rw [expDirKids] at hy
    obtain ⟨m, es2, hmem, hh, hp, hd⟩ := mem_expDirKids P rest y hy
    exact ⟨m, es2, List.mem_cons_of_mem _ hmem, hh, hp, hd⟩
  | .dir n es2 :: rest, y, hy => by
    rw [expDirKids] at hy
    by_cases hh : liHidden n
    · rw [if_pos hh] at hy
      obtain ⟨m, es3, hmem, hh2, hp, hd⟩ := mem_expDirKids P rest y hy
      exact ⟨m, es3, List.mem_cons_of_mem _ hmem, hh2, hp, hd⟩
    · rw [if_neg hh] at hy
      rcases List.mem_cons.mp hy with hy | hy
      · by_cases hg : infixB ".git".data ((P ++ "/" ++ n) : String).data = true
        · rw [if_pos hg] at hy
          exact ⟨n, es2, List.mem_cons_self _ _, by simpa using hh,
            by rw [hy]; rfl, by rw [hy]; rfl⟩
        · rw [if_neg hg] at hy
          exact ⟨n, es2, List.mem_cons_self _ _, by simpa using hh,
            by rw [hy]; rfl, by rw [hy]; rfl⟩
      · obtain ⟨m, es3, hmem, hh2, hp, hd⟩ := mem_expDirKids P rest y hy
        exact ⟨m, es3, List.mem_cons_of_mem _ hmem, hh2, hp, hd⟩

theorem mem_expHiddenKids (P : String) :
    ∀ (es : List FSEntry) (y : FileNode), y ∈ expHiddenKids P es →
    ∃ n es2, (FSEntry.dir n es2) ∈ es ∧ liHidden n = true ∧
      y.path = P ++ "/" ++ n ∧ y.is_dir = true
  | [], y, hy => by rw [expHiddenKids] at hy; exact absurd hy (List.not_mem_nil y)
  | .file n c :: rest, y, hy => by
    rw [expHiddenKids] at hy
    obtain ⟨m, es2, hmem, hh, hp, hd⟩ := mem_expHiddenKids P rest y hy
    exact ⟨m, es2, List.mem_cons_of_mem _ hmem, hh, hp, hd⟩
  | .dir n es2 :: rest, y, hy => by
    rw [expHiddenKids] at hy
    by_cases hc : (liHidden n &&
        !infixB ".git".data ((P ++ "/" ++ n) : String).data) = true
    · rw [if_pos hc] at hy
      rcases List.mem_cons.mp hy with hy | hy
      · have hc2 := hc
        simp only [Bool.and_eq_true] at hc2
        exact ⟨n, es2, List.mem_cons_self _ _, hc2.1,
          by rw [hy]; rfl, by rw [hy]; rfl⟩
      · obtain ⟨m, es3, hmem, hh, hp, hd⟩ := mem_expHiddenKids P rest y hy
        exact ⟨m, es3, List.mem_cons_of_mem _ hmem, hh, hp, hd⟩
    · rw [if_neg hc] at hy
      obtain ⟨m, es3, hmem, hh, hp, hd⟩ := mem_expHiddenKids P rest y hy
      exact ⟨m, es3, List.mem_cons_of_mem _ hmem, hh, hp, hd⟩

theorem expDirKids_append (P : String) :
    ∀ (xs ys : List FSEntry),
    expDirKids P (xs ++ ys) = expDirKids P xs ++ expDirKids P ys
  | [], ys => by rw [expDirKids, List.nil_append]; rfl
  | .file n c :: rest, ys => by
    rw [List.cons_append, expDirKids, expDirKids, expDirKids_append P rest ys]
  | .dir n es2 :: rest, ys => by
    rw [List.cons_append, expDirKids, expDirKids]
    by_cases hh : liHidden n
    · rw [if_pos hh, if_pos hh, expDirKids_append P rest ys]
    · rw [if_neg hh, if_neg hh, expDirKids_append P rest ys]
      rfl

theorem expHiddenKids_append (P : String) :
    ∀ (xs ys : List FSEntry),
    expHiddenKids P (xs ++ ys) = expHiddenKids P xs ++ expHiddenKids P ys
  | [], ys => by rw [expHiddenKids, List.nil_append]; rfl
  | .file n c :: rest, ys => by
    rw [List.cons_append, expHiddenKids, expHiddenKids, expHiddenKids_append P rest ys]
  | .dir n es2 :: rest, ys => by
    rw [List.cons_append, expHiddenKids, expHiddenKids]
    by_cases hc : (liHidden n &&
        !infixB ".git".data ((P ++ "/" ++ n) : String).data) = true
    · rw [if_pos hc, if_pos hc, expHiddenKids_append P rest ys]
      rfl
    · rw [if_neg hc, if_neg hc, expHiddenKids_append P rest ys]

theorem fileKidsOf_append (P : String) (xs ys : List FSEntry) :
    fileKidsOf P (xs ++ ys) = fileKidsOf P xs ++ fileKidsOf P ys := by
  rw [fileKidsOf, fileKidsOf, fileKidsOf, List.filterMap_append]

theorem noMatch_of_path (y : FileNode) (P m n : String) (hy : y.path = P ++ "/" ++ m)
    (hm : '/' ∉ m.data) (hmn : ¬ m = n) :
    ¬(pyBasename y.path.data = n.data ∧ y.is_dir = true) := by
  intro hc
  apply hmn
  apply String.ext
  rw [← pyBasename_node P m hm, ← hy]
  exact hc.1

theorem expDirKids_single_file (P n : String) (c : Option String) :
    expDirKids P [.file n c] = [] := by
  rw [expDirKids, expDirKids]

theorem expDirKids_single_dir_hidden (P n : String) (es2 : List FSEntry)
    (hh : liHidden n = true) :
    expDirKids P [.dir n es2] = [] := by
  rw [expDirKids, if_pos hh, expDirKids]

theorem expDirKids_single_dir_git (P n : String) (es2 : List FSEntry)
    (hh : liHidden n = false)
    (hg : infixB ".git".data ((P ++ "/" ++ n) : String).data = true) :
    expDirKids P [.dir n es2] = [.mk (P ++ "/" ++ n) true (some []) none none] := by
  rw [expDirKids, if_neg (by rw [hh]; exact Bool.false_ne_true), if_pos hg, expDirKids]

theorem expDirKids_single_dir (P n : String) (es2 : List FSEntry)
    (hh : liHidden n = false)
    (hg : ¬ infixB ".git".data ((P ++ "/" ++ n) : String).data = true) :
    expDirKids P [.dir n es2] =
      [.mk (P ++ "/" ++ n) true (some (expKids (P ++ "/" ++ n) es2)) none none] := by
  rw [expDirKids, if_neg (by rw [hh]; exact Bool.false_ne_true), if_neg hg, expDirKids]

theorem expHiddenKids_single_file (P n : String) (c : Option String) :
    expHiddenKids P [.file n c] = [] := by
  rw [expHiddenKids, expHiddenKids]

theorem expHiddenKids_single_dir_vis (P n : String) (es2 : List FSEntry)
    (hh : liHidden n = false) :
    expHiddenKids P [.dir n es2] = [] := by
  rw [expHiddenKids, if_neg (by rw [hh]; simp), expHiddenKids]

theorem expHiddenKids_single_dir_git (P n : String) (es2 : List FSEntry)
    (hg : infixB ".git".data ((P ++ "/" ++ n) : String).data = true) :
    expHiddenKids P [.dir n es2] = [] := by
  rw [expHiddenKids, if_neg (by rw [hg]; simp), expHiddenKids]

theorem expHiddenKids_single_dir (P n : String) (es2 : List FSEntry)
    (hh : liHidden n = true)
    (hg : infixB ".git".data ((P ++ "/" ++ n) : String).data = false) :
    expHiddenKids P [.dir n es2] =
      [.mk (P ++ "/" ++ n) true (some (expKids (P ++ "/" ++ n) es2)) none none] := by
  rw [expHiddenKids, if_pos (by rw [hh, hg]; rfl), expHiddenKids]

theorem noMatch_expDirKids (P n : String) (es : List FSEntry)
    (hn : ∀ x ∈ es, ¬ x.name = n) (hs : ∀ x ∈ es, '/' ∉ x.name.data) :
    ∀ y ∈ expDirKids P es,
      ¬(pyBasename y.path.data = n.data ∧ y.is_dir = true) := by
  intro y hy
  obtain ⟨m, es2, hmem, _, hp, _⟩ := mem_expDirKids P es y hy
  exact noMatch_of_path y P m n hp (hs _ hmem) (hn _ hmem)

theorem noMatch_expHiddenKids (P n : String) (es : List FSEntry)
    (hn : ∀ x ∈ es, ¬ x.name = n) (hs : ∀ x ∈ es, '/' ∉ x.name.data) :
    ∀ y ∈ expHiddenKids P es,
      ¬(pyBasename y.path.data = n.data ∧ y.is_dir = true) := by
  intro y hy
  obtain ⟨m, es2, hmem, _, hp, _⟩ := mem_expHiddenKids P es y hy
  exact noMatch_of_path y P m n hp (hs _ hmem) (hn _ hmem)

theorem noMatch_dirKidsOf (P n : String) (es : List FSEntry)
    (hn : ∀ x ∈ es, ¬ x.name = n) (hs : ∀ x ∈ es, '/' ∉ x.name.data) :
    ∀ y ∈ dirKidsOf P es,
      ¬(pyBasename y.path.data = n.data ∧ y.is_dir = true) := by
  intro y hy
  obtain ⟨m, es2, hmem, _, he⟩ := mem_dirKidsOf P es y hy
  subst he
  exact noMatch_of_path _ P m n rfl (hs _ hmem) (hn _ hmem)

theorem noMatch_fileKidsOf (P n : String) (es : List FSEntry) :
    ∀ y ∈ fileKidsOf P es,
      ¬(pyBasename y.path.data = n.data ∧ y.is_dir = true) := by
  intro y hy hc
  obtain ⟨m, c, hmem, _, he⟩ := mem_fileKidsOf P es y hy
  subst he
  exact Bool.false_ne_true hc.2

theorem walk_fold_pair :
    (∀ (e : FSEntry), ∀ (root P : String) (ps : List String) (t : FileNode)
        (esDone rest : List FSEntry),
      validFS (esDone ++ e :: rest) = true →
      Rooted root P ps → (∀ s ∈ ps, goodSeg s) →
      getNodeAt? t ps =
        some (.mk P true (some (midChildren P esDone (e :: rest))) none none) →
      List.foldl (buildStep root) t (osWalkEntry P e) =
        setNodeAt t ps
          (.mk P true (some (midChildren P (esDone ++ [e]) rest)) none none)) ∧
    (∀ (es : List FSEntry), ∀ (root P : String) (ps : List String) (t : FileNode)
        (esDone : List FSEntry),
      validFS (esDone ++ es) = true →
      Rooted root P ps → (∀ s ∈ ps, goodSeg s) →
      getNodeAt? t ps =
        some (.mk P true (some (midChildren P esDone es)) none none) →
      List.foldl (buildStep root) t (osWalkList P es) =
        setNodeAt t ps
          (.mk P true (some (midChildren P (esDone ++ es) [])) none none)) := by
  apply FSEntry.mutualInductionE
  · -- file entry: no walk steps, only bookkeeping on the midway children
    intro n c root P ps t esDone rest hv hroot hgood h
    rw [osWalkEntry, List.foldl_nil]
    have hmid : midChildren P (esDone ++ [FSEntry.file n c]) rest =
        midChildren P esDone (FSEntry.file n c :: rest) := by
      rw [midChildren, midChildren, expDirKids_append, expDirKids_single_file,
          expHiddenKids_append, expHiddenKids_single_file, dirKidsOf_cons_file,
          List.append_assoc esDone [FSEntry.file n c] rest]
      simp
    rw [hmid]
    exact (setNodeAt_getNodeAt ps t _ h).symm
  · -- directory entry
    intro n es2 ih root P ps t esDone rest hv hroot hgood h
    have hvE : validFSEntry (FSEntry.dir n es2) = true :=
      validFS_mem _ hv _ (List.mem_append_right _ (List.mem_cons_self _ _))
    obtain ⟨hnv, hes2⟩ := validFSEntry_dir n es2 hvE
    obtain ⟨hnne, hnsep, hndot, _⟩ := validName_spec n hnv
    obtain ⟨hdoneN, hrestN⟩ := validFS_split esDone _ rest hv
    have hdoneN2 : ∀ x ∈ esDone, ¬ x.name = n := fun x hx => hdoneN x hx
    have hrestN2 : ∀ x ∈ rest, ¬ x.name = n := fun x hx => hrestN x hx
    have hsepDone : ∀ x ∈ esDone, '/' ∉ x.name.data :=
      fun x hx => validFS_sep _ hv x (List.mem_append_left _ hx)
    have hsepRest : ∀ x ∈ rest, '/' ∉ x.name.data :=
      fun x hx => validFS_sep _ hv x
        (List.mem_append_right _ (List.mem_cons_of_mem _ hx))
    rw [osWalkEntry, List.foldl_cons]
    by_cases hg : infixB ".git".data ((P ++ "/" ++ n) : String).data = true
    · -- the subdirectory's dirpath contains ".git": every step is skipped
      have hstep : buildStep root t (P ++ "/" ++ n, es2) = t := by
        rw [buildStep]; exact if_pos hg
      rw [hstep, foldl_skip_pair.2 es2 (P ++ "/" ++ n) root t hg]
      by_cases hvis : liHidden n = true
      · have hmid : midChildren P (esDone ++ [FSEntry.dir n es2]) rest =
            midChildren P esDone (FSEntry.dir n es2 :: rest) := by
          rw [midChildren, midChildren, expDirKids_append,
              expDirKids_single_dir_hidden P n es2 hvis,
              expHiddenKids_append, expHiddenKids_single_dir_git P n es2 hg,
              dirKidsOf_cons_dir_hidden P n es2 rest hvis,
              List.append_assoc esDone [FSEntry.dir n es2] rest]
          simp
        rw [hmid]
        exact (setNodeAt_getNodeAt ps t _ h).symm
      · have hvis' : liHidden n = false := by simpa using hvis
        have hmid : midChildren P (esDone ++ [FSEntry.dir n es2]) rest =
            midChildren P esDone (FSEntry.dir n es2 :: rest) := by
          rw [midChildren, midChildren, expDirKids_append,
              expDirKids_single_dir_git P n es2 hvis' hg,
              expHiddenKids_append, expHiddenKids_single_dir_vis P n es2 hvis',
              dirKidsOf_cons_dir P n es2 rest hvis',
              List.append_assoc esDone [FSEntry.dir n es2] rest]
          simp [List.append_assoc]
        rw [hmid]
        exact (setNodeAt_getNodeAt ps t _ h).symm
    · -- the subdirectory is walked
      have hpp : pathParts root (P ++ "/" ++ n) = ps ++ [n] := by
        apply pathParts_of_rooted root (P ++ "/" ++ n) (ps ++ [n])
          (rooted_child root P ps n hroot)
        intro s hs
        rcases List.mem_append.mp hs with hs | hs
        · exact ⟨(hgood s hs).1, (hgood s hs).2.1⟩
        · rw [List.mem_singleton.mp hs]; exact ⟨hnne, hnsep⟩
      have hstep0 : buildStep root t (P ++ "/" ++ n, es2) =
          getOrCreateAppend (pathParts root (P ++ "/" ++ n))
            (dirKidsOf (P ++ "/" ++ n) es2 ++ fileKidsOf (P ++ "/" ++ n) es2) t := by
        rw [buildStep]; exact if_neg hg
      have hsplit := gOCA_split ps [n]
        (dirKidsOf (P ++ "/" ++ n) es2 ++ fileKidsOf (P ++ "/" ++ n) es2) t
        (FileNode.mk P true (some (midChildren P esDone (FSEntry.dir n es2 :: rest)))
          none none)
        h (fun s hs => (hgood s hs).2.2)
      have hmid0 : midChildren (P ++ "/" ++ n) [] es2 =
          dirKidsOf (P ++ "/" ++ n) es2 ++ fileKidsOf (P ++ "/" ++ n) es2 := by
        rw [midChildren, expDirKids, expHiddenKids]
        simp
      have hnew : getOrCreateAppend []
          (dirKidsOf (P ++ "/" ++ n) es2 ++ fileKidsOf (P ++ "/" ++ n) es2)
          (FileNode.mk (P ++ "/" ++ n) true (some []) none none) =
          FileNode.mk (P ++ "/" ++ n) true
            (some (midChildren (P ++ "/" ++ n) [] es2)) none none := by
        rw [getOrCreateAppend, hmid0]
        rfl
      have hmatchF : pyBasename (FileNode.mk (P ++ "/" ++ n) true
          (some (midChildren (P ++ "/" ++ n) [] es2)) none none).path.data = n.data ∧
          (FileNode.mk (P ++ "/" ++ n) true
            (some (midChildren (P ++ "/" ++ n) [] es2)) none none).is_dir = true :=
        ⟨pyBasename_node P n hnsep, rfl⟩
      have hrootn : Rooted root (P ++ "/" ++ n) (ps ++ [n]) :=
        rooted_child root P ps n hroot
      have hgoodn : ∀ s ∈ ps ++ [n], goodSeg s := by
        intro s hs
        rcases List.mem_append.mp hs with hs | hs
        · exact hgood s hs
        · rw [List.mem_singleton.mp hs]; exact ⟨hnne, hnsep, hndot⟩
      have hmidF : midChildren (P ++ "/" ++ n) ([] ++ es2) [] =
          expKids (P ++ "/" ++ n) es2 := by
        rw [List.nil_append, midChildren, expKids, dirKidsOf_nil]
        simp
      by_cases hvis : liHidden n = true
      · -- hidden subdirectory: the node is re-created at the end of the children
        have hNoAll : ∀ y ∈ expDirKids P esDone ++ dirKidsOf P rest ++
            fileKidsOf P (esDone ++ FSEntry.dir n es2 :: rest) ++
            expHiddenKids P esDone,
            ¬(pyBasename y.path.data = n.data ∧ y.is_dir = true) := by
          intro y hy
          rcases List.mem_append.mp hy with hy1 | hyH
          · rcases List.mem_append.mp hy1 with hy2 | hyF
            · rcases List.mem_append.mp hy2 with hyD | hydK
              · exact noMatch_expDirKids P n esDone hdoneN2 hsepDone y hyD
              · exact noMatch_dirKidsOf P n rest hrestN2 hsepRest y hydK
            · exact noMatch_fileKidsOf P n _ y hyF
          · exact noMatch_expHiddenKids P n esDone hdoneN2 hsepDone y hyH
        have hmid : midChildren P esDone (FSEntry.dir n es2 :: rest) =
            expDirKids P esDone ++ dirKidsOf P rest ++
              fileKidsOf P (esDone ++ FSEntry.dir n es2 :: rest) ++
              expHiddenKids P esDone := by
          rw [midChildren, dirKidsOf_cons_dir_hidden P n es2 rest hvis]
        have hnd1eval : getOrCreateAppend [n]
            (dirKidsOf (P ++ "/" ++ n) es2 ++ fileKidsOf (P ++ "/" ++ n) es2)
            (FileNode.mk P true
              (some (midChildren P esDone (FSEntry.dir n es2 :: rest))) none none) =
            FileNode.mk P true
              (some ((expDirKids P esDone ++ dirKidsOf P rest ++
                fileKidsOf P (esDone ++ FSEntry.dir n es2 :: rest) ++
                expHiddenKids P esDone) ++
                [FileNode.mk (P ++ "/" ++ n) true
                  (some (midChildren (P ++ "/" ++ n) [] es2)) none none]))
              none none := by
          rw [getOrCreateAppend, if_neg hndot, Option.getD_some, hmid,
              scanLevel_no_match P n _ _ hNoAll]
          simp only [hnew]
        have h1 : getNodeAt? (setNodeAt t ps (FileNode.mk P true
            (some ((expDirKids P esDone ++ dirKidsOf P rest ++
              fileKidsOf P (esDone ++ FSEntry.dir n es2 :: rest) ++
              expHiddenKids P esDone) ++
              [FileNode.mk (P ++ "/" ++ n) true
                (some (midChildren (P ++ "/" ++ n) [] es2)) none none]))
            none none)) ps = some (FileNode.mk P true
            (some ((expDirKids P esDone ++ dirKidsOf P rest ++
              fileKidsOf P (esDone ++ FSEntry.dir n es2 :: rest) ++
              expHiddenKids P esDone) ++
              [FileNode.mk (P ++ "/" ++ n) true
                (some (midChildren (P ++ "/" ++ n) [] es2)) none none]))
            none none) :=
          getNodeAt?_setNodeAt ps t _ _ h rfl rfl
        have h2 : getNodeAt? (setNodeAt t ps (FileNode.mk P true
            (some ((expDirKids P esDone ++ dirKidsOf P rest ++
              fileKidsOf P (esDone ++ FSEntry.dir n es2 :: rest) ++
              expHiddenKids P esDone) ++
              [FileNode.mk (P ++ "/" ++ n) true
                (some (midChildren (P ++ "/" ++ n) [] es2)) none none]))
            none none)) (ps ++ [n]) =
            some (FileNode.mk (P ++ "/" ++ n) true
              (some (midChildren (P ++ "/" ++ n) [] es2)) none none) := by
          rw [getNodeAt?_append, h1]
          simp only [Option.some_bind]
          rw [getNodeAt?, Option.getD_some,
              scanFind_found n _ _ _ [] hNoAll hmatchF]
          rfl
        have hres := ih root (P ++ "/" ++ n) (ps ++ [n]) _ []
          (show validFS ([] ++ es2) = true from hes2) hrootn hgoodn h2
        rw [hstep0, hpp, hsplit, hnd1eval, hres, hmidF,
            setNodeAt_append ps [n] _ _ _ h1,
            setNodeAt_setNodeAt ps t
              (FileNode.mk P true
                (some (midChildren P esDone (FSEntry.dir n es2 :: rest))) none none)
              (FileNode.mk P true
                (some ((expDirKids P esDone ++ dirKidsOf P rest ++
                  fileKidsOf P (esDone ++ FSEntry.dir n es2 :: rest) ++
                  expHiddenKids P esDone) ++
                  [FileNode.mk (P ++ "/" ++ n) true
                    (some (midChildren (P ++ "/" ++ n) [] es2)) none none]))
                none none)
              _ h rfl rfl]
        have hset1 : setNodeAt (FileNode.mk P true
            (some ((expDirKids P esDone ++ dirKidsOf P rest ++
              fileKidsOf P (esDone ++ FSEntry.dir n es2 :: rest) ++
              expHiddenKids P esDone) ++
              [FileNode.mk (P ++ "/" ++ n) true
                (some (midChildren (P ++ "/" ++ n) [] es2)) none none]))
            none none) [n]
            (FileNode.mk (P ++ "/" ++ n) true
              (some (expKids (P ++ "/" ++ n) es2)) none none) =
            FileNode.mk P true
              (some ((expDirKids P esDone ++ dirKidsOf P rest ++
                fileKidsOf P (esDone ++ FSEntry.dir n es2 :: rest) ++
                expHiddenKids P esDone) ++
                [FileNode.mk (P ++ "/" ++ n) true
                  (some (expKids (P ++ "/" ++ n) es2)) none none])) none none := by
          rw [setNodeAt, Option.getD_some,
              scanReplace_found n _ _ _ [] hNoAll hmatchF]
          rfl
        rw [hset1]
        have hfinal : (expDirKids P esDone ++ dirKidsOf P rest ++
            fileKidsOf P (esDone ++ FSEntry.dir n es2 :: rest) ++
            expHiddenKids P esDone) ++
            [FileNode.mk (P ++ "/" ++ n) true
              (some (expKids (P ++ "/" ++ n) es2)) none none] =
            midChildren P (esDone ++ [FSEntry.dir n es2]) rest := by
          rw [midChildren, expDirKids_append,
              expDirKids_single_dir_hidden P n es2 hvis,
              expHiddenKids_append,
              expHiddenKids_single_dir P n es2 hvis (by simpa using hg),
              List.append_assoc esDone [FSEntry.dir n es2] rest]
          simp [List.append_assoc]
        rw [hfinal]
      · -- visible subdirectory: its shell is found and filled in place
        have hvis' : liHidden n = false := by simpa using hvis
        have hpreD : ∀ y ∈ expDirKids P esDone,
            ¬(pyBasename y.path.data = n.data ∧ y.is_dir = true) :=
          noMatch_expDirKids P n esDone hdoneN2 hsepDone
        have hmatchS : pyBasename (FileNode.mk (P ++ "/" ++ n) true (some [])
            none none).path.data = n.data ∧
            (FileNode.mk (P ++ "/" ++ n) true (some []) none none).is_dir = true :=
          ⟨pyBasename_node P n hnsep, rfl⟩
        have hmid : midChildren P esDone (FSEntry.dir n es2 :: rest) =
            expDirKids P esDone ++
              FileNode.mk (P ++ "/" ++ n) true (some []) none none ::
              (dirKidsOf P rest ++
                (fileKidsOf P (esDone ++ FSEntry.dir n es2 :: rest) ++
                 expHiddenKids P esDone)) := by
          rw [midChildren, dirKidsOf_cons_dir P n es2 rest hvis']
          simp [List.append_assoc]
        have hnd1eval : getOrCreateAppend [n]
            (dirKidsOf (P ++ "/" ++ n) es2 ++ fileKidsOf (P ++ "/" ++ n) es2)
            (FileNode.mk P true
              (some (midChildren P esDone (FSEntry.dir n es2 :: rest))) none none) =
            FileNode.mk P true
              (some (expDirKids P esDone ++
                FileNode.mk (P ++ "/" ++ n) true
                  (some (midChildren (P ++ "/" ++ n) [] es2)) none none ::
                (dirKidsOf P rest ++
                  (fileKidsOf P (esDone ++ FSEntry.dir n es2 :: rest) ++
                   expHiddenKids P esDone)))) none none := by
          rw [getOrCreateAppend, if_neg hndot, Option.getD_some, hmid,
              scanLevel_found P n _ _ _ _ hpreD hmatchS]
          simp only [hnew]
        have h1 : getNodeAt? (setNodeAt t ps (FileNode.mk P true
            (some (expDirKids P esDone ++
              FileNode.mk (P ++ "/" ++ n) true
                (some (midChildren (P ++ "/" ++ n) [] es2)) none none ::
              (dirKidsOf P rest ++
                (fileKidsOf P (esDone ++ FSEntry.dir n es2 :: rest) ++
                 expHiddenKids P esDone)))) none none)) ps =
            some (FileNode.mk P true
              (some (expDirKids P esDone ++
                FileNode.mk (P ++ "/" ++ n) true
                  (some (midChildren (P ++ "/" ++ n) [] es2)) none none ::
                (dirKidsOf P rest ++
                  (fileKidsOf P (esDone ++ FSEntry.dir n es2 :: rest) ++
                   expHiddenKids P esDone)))) none none) :=
          getNodeAt?_setNodeAt ps t _ _ h rfl rfl
        have h2 : getNodeAt? (setNodeAt t ps (FileNode.mk P true
            (some (expDirKids P esDone ++
              FileNode.mk (P ++ "/" ++ n) true
                (some (midChildren (P ++ "/" ++ n) [] es2)) none none ::
              (dirKidsOf P rest ++
                (fileKidsOf P (esDone ++ FSEntry.dir n es2 :: rest) ++
                 expHiddenKids P esDone)))) none none)) (ps ++ [n]) =
            some (FileNode.mk (P ++ "/" ++ n) true
              (some (midChildren (P ++ "/" ++ n) [] es2)) none none) := by
          rw [getNodeAt?_append, h1]
          simp only [Option.some_bind]
          rw [getNodeAt?, Option.getD_some,
              scanFind_found n _ _ _ _ hpreD hmatchF]
          rfl
        have hres := ih root (P ++ "/" ++ n) (ps ++ [n]) _ []
          (show validFS ([] ++ es2) = true from hes2) hrootn hgoodn h2
        rw [hstep0, hpp, hsplit, hnd1eval, hres, hmidF,
            setNodeAt_append ps [n] _ _ _ h1,
            setNodeAt_setNodeAt ps t
              (FileNode.mk P true
                (some (midChildren P esDone (FSEntry.dir n es2 :: rest))) none none)
              (FileNode.mk P true
                (some (expDirKids P esDone ++
                  FileNode.mk (P ++ "/" ++ n) true
                    (some (midChildren (P ++ "/" ++ n) [] es2)) none none ::
                  (dirKidsOf P rest ++
                    (fileKidsOf P (esDone ++ FSEntry.dir n es2 :: rest) ++
                     expHiddenKids P esDone)))) none none)
              _ h rfl rfl]
        have hset1 : setNodeAt (FileNode.mk P true
            (some (expDirKids P esDone ++
              FileNode.mk (P ++ "/" ++ n) true
                (some (midChildren (P ++ "/" ++ n) [] es2)) none none ::
              (dirKidsOf P rest ++
                (fileKidsOf P (esDone ++ FSEntry.dir n es2 :: rest) ++
                 expHiddenKids P esDone)))) none none) [n]
            (FileNode.mk (P ++ "/" ++ n) true
              (some (expKids (P ++ "/" ++ n) es2)) none none) =
            FileNode.mk P true
              (some (expDirKids P esDone ++
                FileNode.mk (P ++ "/" ++ n) true
                  (some (expKids (P ++ "/" ++ n) es2)) none none ::
                (dirKidsOf P rest ++
                  (fileKidsOf P (esDone ++ FSEntry.dir n es2 :: rest) ++
                   expHiddenKids P esDone)))) none none := by
          rw [setNodeAt, Option.getD_some,
              scanReplace_found n _ _ _ _ hpreD hmatchF]
          rfl
        rw [hset1]
        have hfinal : expDirKids P esDone ++
            FileNode.mk (P ++ "/" ++ n) true
              (some (expKids (P ++ "/" ++ n) es2)) none none ::
            (dirKidsOf P rest ++
              (fileKidsOf P (esDone ++ FSEntry.dir n es2 :: rest) ++
               expHiddenKids P esDone)) =
            midChildren P (esDone ++ [FSEntry.dir n es2]) rest := by
          rw [midChildren, expDirKids_append,
              expDirKids_single_dir P n es2 hvis' hg,
              expHiddenKids_append, expHiddenKids_single_dir_vis P n es2 hvis',
              List.append_assoc esDone [FSEntry.dir n es2] rest]
          simp [List.append_assoc]
        rw [hfinal]
  · -- empty entry list: nothing to fold
    intro root P ps t esDone hv hroot hgood h
    rw [osWalkList, List.foldl_nil, List.append_nil]
    exact (setNodeAt_getNodeAt ps t _ h).symm
  · -- entry list: one entry, then the remainder on the updated tree
    intro e es ihe ihes root P ps t esDone hv hroot hgood h
    rw [osWalkList, List.foldl_append,
        ihe root P ps t esDone es hv hroot hgood h]
    have hv2 : validFS ((esDone ++ [e]) ++ es) = true := by
      rw [List.append_assoc]; exact hv
    have h2 : getNodeAt? (setNodeAt t ps (FileNode.mk P true
        (some (midChildren P (esDone ++ [e]) es)) none none)) ps =
        some (FileNode.mk P true
          (some (midChildren P (esDone ++ [e]) es)) none none) :=
      getNodeAt?_setNodeAt ps t _ _ h rfl rfl
    rw [ihes root P ps _ (esDone ++ [e]) hv2 hroot hgood h2,
        setNodeAt_setNodeAt ps t
          (FileNode.mk P true (some (midChildren P esDone (e :: es))) none none)
          (FileNode.mk P true (some (midChildren P (esDone ++ [e]) es)) none none)
          _ h rfl rfl,
        List.append_assoc]
    rfl

theorem buildFileTree_eq_expTree (root : String) (es : List FSEntry)
    (hg : infixB ".git".data root.data = false) (hv : validFS es = true) :
    buildFileTree root es = expTree root es := by
  have hg' : ¬ infixB ".git".data root.data = true := by
    rw [hg]; exact Bool.false_ne_true
  have hmidroot : midChildren root [] es = dirKidsOf root es ++ fileKidsOf root es := by
    rw [midChildren, expDirKids, expHiddenKids]
    simp
  have hpp0 : pathParts root root = [] := by rw [pathParts, if_pos rfl]
  rw [buildFileTree, osWalk, List.foldl_cons]
  have hstep : buildStep root (FileNode.mk root true (some []) none none) (root, es) =
      FileNode.mk root true (some (midChildren root [] es)) none none := by
    show (if infixB ".git".data root.data then
            FileNode.mk root true (some []) none none
          else getOrCreateAppend (pathParts root root)
            (dirKidsOf root es ++ fileKidsOf root es)
            (FileNode.mk root true (some []) none none)) = _
    rw [if_neg hg', hpp0, getOrCreateAppend, hmidroot]
    rfl
  rw [hstep]
  have h0 : getNodeAt? (FileNode.mk root true (some (midChildren root [] es))
      none none) [] =
      some (FileNode.mk root true (some (midChildren root [] es)) none none) := by
    rw [getNodeAt?]
  rw [walk_fold_pair.2 es root root [] _ []
      (show validFS ([] ++ es) = true from hv) (rooted_refl root)
      (fun s hs => absurd hs (List.not_mem_nil s)) h0]
  have hmidF : midChildren root ([] ++ es) [] = expKids root es := by
    rw [List.nil_append, midChildren, expKids, dirKidsOf_nil]
    simp
  rw [hmidF, expTree]
  rfl

theorem buildFileTree_skip (root : String) (es : List FSEntry)
    (hg : infixB ".git".data root.data = true) :
    buildFileTree root es = FileNode.mk root true (some []) none none := by
  rw [buildFileTree, osWalk, List.foldl_cons]
  have hstep : buildStep root (FileNode.mk root true (some []) none none)
      (root, es) = FileNode.mk root true (some []) none none := by
    rw [buildStep]; exact if_pos hg
  rw [hstep, foldl_skip_pair.2 es root root _ hg]

theorem seg_append_eq : ∀ (a b u v : List Char),
    '/' ∉ a → '/' ∉ b →
    (u = [] ∨ ∃ u2, u = '/' :: u2) → (v = [] ∨ ∃ v2, v = '/' :: v2) →
    a ++ u = b ++ v → a = b
  | [], b, u, v, _, hb, hu, _, he => by
    cases b with
    | nil => rfl
    | cons c b2 =>
      exfalso
      rcases hu with hu | ⟨u2, hu⟩
      · rw [hu] at he; simp at he
      · rw [hu] at he
        have he2 : '/' :: u2 = c :: (b2 ++ v) := by simpa using he
        have hc : c = '/' := ((List.cons_eq_cons).mp he2).1.symm
        exact hb (hc ▸ List.mem_cons_self c b2)
  | c :: a2, b, u, v, ha, hb, hu, hv, he => by
    cases b with
    | nil =>
      exfalso
      rcases hv with hv | ⟨v2, hv⟩
      · rw [hv] at he; simp at he
      · rw [hv] at he
        have he2 : c :: (a2 ++ u) = '/' :: v2 := by simpa using he
        have hc : c = '/' := ((List.cons_eq_cons).mp he2).1
        exact ha (hc ▸ List.mem_cons_self c a2)
    | cons d b2 =>
      have he2 : c :: (a2 ++ u) = d :: (b2 ++ v) := by simpa using he
      obtain ⟨hcd, he3⟩ := (List.cons_eq_cons).mp he2
      have ha2 : '/' ∉ a2 := fun hm => ha (List.mem_cons_of_mem c hm)
      have hb2 : '/' ∉ b2 := fun hm => hb (List.mem_cons_of_mem d hm)
      rw [hcd, seg_append_eq a2 b2 u v ha2 hb2 hu hv he3]

theorem join_shape (qs : List String) :
    (qs.map (fun s => '/' :: s.data)).join = [] ∨
    ∃ u2, (qs.map (fun s => '/' :: s.data)).join = '/' :: u2 := by
  cases qs with
  | nil => left; rfl
  | cons s qs2 =>
    right
    exact ⟨s.data ++ (qs2.map (fun x => '/' :: x.data)).join, by
      rw [List.map_cons]
      rfl⟩

theorem underSeg_self (P n : String) : UnderSeg P n (P ++ "/" ++ n) :=
  ⟨[], by simp, rooted_refl _⟩

theorem underSeg_lift (P n m q : String) (hm : m.data ≠ [] ∧ '/' ∉ m.data)
    (h : UnderSeg (P ++ "/" ++ n) m q) : UnderSeg P n q := by
  obtain ⟨qs, hqs, hr⟩ := h
  refine ⟨m :: qs, ?_, ?_⟩
  · intro s hs
    rcases List.mem_cons.mp hs with hs | hs
    · rw [hs]; exact hm
    · exact hqs s hs
  · have h1 : Rooted (P ++ "/" ++ n) ((P ++ "/" ++ n) ++ "/" ++ m) [m] := by
      have := rooted_child (P ++ "/" ++ n) (P ++ "/" ++ n) [] m
        (rooted_refl (P ++ "/" ++ n))
      simpa using this
    have h2 := rooted_trans (P ++ "/" ++ n) ((P ++ "/" ++ n) ++ "/" ++ m) q [m] qs h1 hr
    simpa using h2

theorem underSeg_ne (P n q : String) (h : UnderSeg P n q) : q ≠ P := by
  obtain ⟨qs, _, hr⟩ := h
  intro he
  rw [Rooted, data_slash, he] at hr
  have h2 := congrArg List.length hr
  simp only [List.length_append, List.length_cons] at h2
  omega

theorem underSeg_name_eq (P n m q : String)
    (hn : '/' ∉ n.data) (hm : '/' ∉ m.data)
    (h1 : UnderSeg P n q) (h2 : UnderSeg P m q) : n = m := by
  obtain ⟨qs1, _, hr1⟩ := h1
  obtain ⟨qs2, _, hr2⟩ := h2
  rw [Rooted, data_slash] at hr1 hr2
  have h3 := hr1.symm.trans hr2
  simp only [List.append_assoc, List.cons_append] at h3
  have h4 := List.append_cancel_left h3
  have h5 : n.data ++ (qs1.map (fun s => '/' :: s.data)).join =
      m.data ++ (qs2.map (fun s => '/' :: s.data)).join := by
    have := (List.cons_eq_cons).mp h4
    simpa using this.2
  exact String.ext (seg_append_eq n.data m.data _ _ hn hm
    (join_shape qs1) (join_shape qs2) h5)

theorem allPaths_mk_some (p : String) (d : Bool) (cs : List FileNode)
    (c l : Option String) :
    allPaths (.mk p d (some cs) c l) = p :: allPathsList cs := by
  rw [allPaths]

theorem allPaths_mk_none (p : String) (d : Bool) (c l : Option String) :
    allPaths (.mk p d none c l) = [p] := by
  rw [allPaths]

theorem allPathsList_nil : allPathsList [] = [] := by rw [allPathsList]

theorem allPathsList_cons (x : FileNode) (xs : List FileNode) :
    allPathsList (x :: xs) = allPaths x ++ allPathsList xs := by
  rw [allPathsList]

theorem allPathsList_append : ∀ (xs ys : List FileNode),
    allPathsList (xs ++ ys) = allPathsList xs ++ allPathsList ys
  | [], ys => by rw [List.nil_append, allPathsList_nil, List.nil_append]
  | x :: xs, ys => by
    rw [List.cons_append, allPathsList_cons, allPathsList_cons,
        allPathsList_append xs ys, List.append_assoc]

theorem allPathsList_eq_join : ∀ (l : List FileNode),
    allPathsList l = (l.map allPaths).join
  | [] => by rw [allPathsList_nil, List.map_nil]; rfl
  | x :: xs => by
    rw [allPathsList_cons, List.map_cons, allPathsList_eq_join xs]
    rfl

theorem allPathsList_perm {l1 l2 : List FileNode} (h : l1.Perm l2) :
    (allPathsList l1).Perm (allPathsList l2) := by
  rw [allPathsList_eq_join, allPathsList_eq_join]
  exact (h.map allPaths).join

theorem expKids_nil (P : String) : expKids P [] = [] := by
  rw [expKids, expDirKids, expHiddenKids, fileKidsOf_nil]
  rfl

theorem expKids_cons_file_hidden (P n : String) (c : Option String)
    (es : List FSEntry) (hh : liHidden n = true) :
    expKids P (.file n c :: es) = expKids P es := by
  rw [expKids, expKids, expDirKids, expHiddenKids,
      fileKidsOf_cons_file_hidden P n c es hh]

theorem expKids_cons_file (P n : String) (c : Option String)
    (es : List FSEntry) (hh : liHidden n = false) :
    expKids P (.file n c :: es) =
      expDirKids P es ++
        (FileNode.mk (P ++ "/" ++ n) false none (some (c.getD ""))
          (some (detectLanguage (P ++ "/" ++ n))) :: fileKidsOf P es) ++
        expHiddenKids P es := by
  rw [expKids, expDirKids, expHiddenKids, fileKidsOf_cons_file P n c es hh]

theorem expKids_cons_dir_hidden_git (P n : String) (es2 es : List FSEntry)
    (hh : liHidden n = true)
    (hg : infixB ".git".data ((P ++ "/" ++ n) : String).data = true) :
    expKids P (.dir n es2 :: es) = expKids P es := by
  have hcond : ¬ ((liHidden n &&
      !infixB ".git".data ((P ++ "/" ++ n) : String).data) = true) := by
    rw [hh, hg]; simp
  rw [expKids, expKids, expDirKids, if_pos hh, expHiddenKids, if_neg hcond,
      fileKidsOf_cons_dir]

theorem expKids_cons_dir_hidden (P n : String) (es2 es : List FSEntry)
    (hh : liHidden n = true)
    (hg : infixB ".git".data ((P ++ "/" ++ n) : String).data = false) :
    expKids P (.dir n es2 :: es) =
      expDirKids P es ++ fileKidsOf P es ++
        (FileNode.mk (P ++ "/" ++ n) true (some (expKids (P ++ "/" ++ n) es2))
          none none :: expHiddenKids P es) := by
  have hcond : (liHidden n &&
      !infixB ".git".data ((P ++ "/" ++ n) : String).data) = true := by
    rw [hh, hg]; rfl
  rw [expKids, expDirKids, if_pos hh, expHiddenKids, if_pos hcond,
      fileKidsOf_cons_dir]

theorem expKids_cons_dir_git (P n : String) (es2 es : List FSEntry)
    (hh : liHidden n = false)
    (hg : infixB ".git".data ((P ++ "/" ++ n) : String).data = true) :
    expKids P (.dir n es2 :: es) =
      (FileNode.mk (P ++ "/" ++ n) true (some []) none none :: expDirKids P es) ++
        fileKidsOf P es ++ expHiddenKids P es := by
  have hh2 : ¬ liHidden n = true := by rw [hh]; exact Bool.false_ne_true
  have hcond : ¬ ((liHidden n &&
      !infixB ".git".data ((P ++ "/" ++ n) : String).data) = true) := by
    rw [hh]; simp
  rw [expKids, expDirKids, if_neg hh2, if_pos hg, expHiddenKids, if_neg hcond,
      fileKidsOf_cons_dir]

theorem expKids_cons_dir (P n : String) (es2 es : List FSEntry)
    (hh : liHidden n = false)
    (hg : ¬ infixB ".git".data ((P ++ "/" ++ n) : String).data = true) :
    expKids P (.dir n es2 :: es) =
      (FileNode.mk (P ++ "/" ++ n) true (some (expKids (P ++ "/" ++ n) es2))
        none none :: expDirKids P es) ++
        fileKidsOf P es ++ expHiddenKids P es := by
  have hh2 : ¬ liHidden n = true := by rw [hh]; exact Bool.false_ne_true
  have hcond : ¬ ((liHidden n &&
      !infixB ".git".data ((P ++ "/" ++ n) : String).data) = true) := by
    rw [hh]; simp
  rw [expKids, expDirKids, if_neg hh2, if_neg hg, expHiddenKids, if_neg hcond,
      fileKidsOf_cons_dir]

theorem nodup_insert_middle (pre a suf : List String)
    (ha : a.Nodup) (hrest : (pre ++ suf).Nodup)
    (hd : ∀ q ∈ a, ¬ q ∈ pre ++ suf) : (pre ++ (a ++ suf)).Nodup := by
  have h1 : (pre ++ a).Perm (a ++ pre) := List.perm_append_comm
  have h2 := h1.append_right suf
  have e1 : (pre ++ a) ++ suf = pre ++ (a ++ suf) := List.append_assoc pre a suf
  have e2 : (a ++ pre) ++ suf = a ++ (pre ++ suf) := List.append_assoc a pre suf
  rw [e1, e2] at h2
  rw [h2.nodup_iff, List.nodup_append]
  exact ⟨ha, hrest, fun q hq hq2 => hd q hq hq2⟩

theorem expKids_nodup_pair :
    (∀ (e : FSEntry), ∀ (P : String), validFSEntry e = true →
      (allPaths (expChild P e)).Nodup ∧
      (∀ q ∈ allPaths (expChild P e), UnderSeg P e.name q)) ∧
    (∀ (es : List FSEntry), ∀ (P : String), validFS es = true →
      (allPathsList (expKids P es)).Nodup ∧
      (∀ q ∈ allPathsList (expKids P es), ∃ x ∈ es, UnderSeg P x.name q)) := by
  apply FSEntry.mutualInductionE
  · -- file node: a single leaf path
    intro n c P _
    constructor
    · rw [expChild, allPaths_mk_none]
      exact List.nodup_singleton _
    · intro q hq
      rw [expChild, allPaths_mk_none, List.mem_singleton] at hq
      rw [hq]
      exact underSeg_self P n
  · -- directory node: its own path plus its children's paths
    intro n es2 ih P hv
    obtain ⟨hnv, hes2⟩ := validFSEntry_dir n es2 hv
    obtain ⟨hnodup2, hlab2⟩ := ih (P ++ "/" ++ n) hes2
    rw [expChild, expTree, allPaths_mk_some]
    constructor
    · rw [List.nodup_cons]
      refine ⟨?_, hnodup2⟩
      intro hmem
      obtain ⟨x, _, hus⟩ := hlab2 _ hmem
      exact underSeg_ne ((P ++ "/" ++ n)) x.name (P ++ "/" ++ n) hus rfl
    · intro q hq
      rcases List.mem_cons.mp hq with hq | hq
      · rw [hq]; exact underSeg_self P n
      · obtain ⟨x, hx, hus⟩ := hlab2 q hq
        have hxv := validName_spec x.name
          (validFSEntry_name x (validFS_mem es2 hes2 x hx))
        exact underSeg_lift P n x.name q ⟨hxv.1, hxv.2.1⟩ hus
  · -- empty list
    intro P _
    rw [expKids_nil, allPathsList_nil]
    exact ⟨List.nodup_nil, fun q hq => absurd hq (List.not_mem_nil q)⟩
  · -- cons
    intro e es ihe ihes P hv
    obtain ⟨hve, hany, hves⟩ := validFS_cons e es hv
    obtain ⟨hnodupN, hlabN⟩ := ihes P hves
    have hdiff : ∀ x ∈ es, ¬ x.name = e.name := by
      intro x hx he2
      rw [List.any_eq_false] at hany
      have := hany x hx
      rw [he2] at this
      simp at this
    have hsepE : '/' ∉ e.name.data :=
      (validName_spec _ (validFSEntry_name e hve)).2.1
    have hsepEs : ∀ x ∈ es, '/' ∉ x.name.data := fun x hx =>
      (validName_spec _ (validFSEntry_name x (validFS_mem es hves x hx))).2.1
    have hnotin : ∀ (q : String), UnderSeg P e.name q →
        ¬ q ∈ allPathsList (expKids P es) := by
      intro q hu hq
      obtain ⟨x, hx, hux⟩ := hlabN q hq
      exact hdiff x hx (underSeg_name_eq P x.name e.name q (hsepEs x hx) hsepE hux hu)
    cases e with
    | file n c =>
      by_cases hh : liHidden n = true
      · rw [expKids_cons_file_hidden P n c es hh]
        refine ⟨hnodupN, ?_⟩
        intro q hq
        obtain ⟨x, hx, hu⟩ := hlabN q hq
        exact ⟨x, List.mem_cons_of_mem _ hx, hu⟩
      · have hh' : liHidden n = false := by simpa using hh
        rw [expKids_cons_file P n c es hh', allPathsList_append,
            allPathsList_append, allPathsList_cons, allPaths_mk_none]
        rw [expKids, allPathsList_append, allPathsList_append] at hnodupN hlabN hnotin
        refine ⟨?_, ?_⟩
        · rw [List.append_assoc, List.append_assoc]
          apply nodup_insert_middle
          · exact List.nodup_singleton _
          · rw [← List.append_assoc]
            exact hnodupN
          · intro q hq
            rw [List.mem_singleton] at hq
            rw [← List.append_assoc, hq]
            exact hnotin (P ++ "/" ++ n) (underSeg_self P n)
        · intro q hq
          rcases List.mem_append.mp hq with hq1 | hqH
          · rcases List.mem_append.mp hq1 with hqD | hq2
            · obtain ⟨x, hx, hu⟩ := hlabN q (List.mem_append_left _
                (List.mem_append_left _ hqD))
              exact ⟨x, List.mem_cons_of_mem _ hx, hu⟩
            · rcases List.mem_append.mp hq2 with hqh | hqF
              · rw [List.mem_singleton] at hqh
                rw [hqh]
                exact ⟨FSEntry.file n c, List.mem_cons_self _ _, underSeg_self P n⟩
              · obtain ⟨x, hx, hu⟩ := hlabN q (List.mem_append_left _
                  (List.mem_append_right _ hqF))
                exact ⟨x, List.mem_cons_of_mem _ hx, hu⟩
          · obtain ⟨x, hx, hu⟩ := hlabN q (List.mem_append_right _ hqH)
            exact ⟨x, List.mem_cons_of_mem _ hx, hu⟩
    | dir n es2 =>
      by_cases hh : liHidden n = true
      · by_cases hgg : infixB ".git".data ((P ++ "/" ++ n) : String).data = true
        · rw [expKids_cons_dir_hidden_git P n es2 es hh hgg]
          refine ⟨hnodupN, ?_⟩
          intro q hq
          obtain ⟨x, hx, hu⟩ := hlabN q hq
          exact ⟨x, List.mem_cons_of_mem _ hx, hu⟩
        · have hgg' : infixB ".git".data ((P ++ "/" ++ n) : String).data = false := by
            simpa using hgg
          obtain ⟨hnodE, hlabE⟩ := ihe P hve
          rw [expChild, expTree] at hnodE hlabE
          rw [expKids_cons_dir_hidden P n es2 es hh hgg', allPathsList_append,
              allPathsList_append, allPathsList_cons]
          rw [expKids, allPathsList_append, allPathsList_append] at hnodupN hlabN hnotin
          refine ⟨?_, ?_⟩
          · apply nodup_insert_middle
            · exact hnodE
            · exact hnodupN
            · intro q hq
              exact hnotin q (hlabE q hq)
          · intro q hq
            rcases List.mem_append.mp hq with hq1 | hq2
            · obtain ⟨x, hx, hu⟩ := hlabN q (List.mem_append_left _ hq1)
              exact ⟨x, List.mem_cons_of_mem _ hx, hu⟩
            · rcases List.mem_append.mp hq2 with hqE | hqH
              · exact ⟨FSEntry.dir n es2, List.mem_cons_self _ _, hlabE q hqE⟩
              · obtain ⟨x, hx, hu⟩ := hlabN q (List.mem_append_right _ hqH)
                exact ⟨x, List.mem_cons_of_mem _ hx, hu⟩
      · have hh' : liHidden n = false := by simpa using hh
        by_cases hgg : infixB ".git".data ((P ++ "/" ++ n) : String).data = true
        · rw [expKids_cons_dir_git P n es2 es hh' hgg, allPathsList_append,
              allPathsList_append, allPathsList_cons, allPaths_mk_some,
              allPathsList_nil]
          rw [expKids, allPathsList_append, allPathsList_append] at hnodupN hlabN hnotin
          refine ⟨?_, ?_⟩
          · rw [List.append_assoc, List.append_assoc, List.nodup_append]
            refine ⟨List.nodup_singleton _, ?_, ?_⟩
            · rw [← List.append_assoc]
              exact hnodupN
            · intro q hq hq2
              rw [List.mem_singleton] at hq
              rw [← List.append_assoc, hq] at hq2
              exact hnotin (P ++ "/" ++ n) (underSeg_self P n) hq2
          · intro q hq
            rcases List.mem_append.mp hq with hq1 | hqH
            · rcases List.mem_append.mp hq1 with hq2 | hqF
              · rcases List.mem_append.mp hq2 with hqh | hqD
                · rw [show ((P ++ "/" ++ n : String) :: ([] : List String)) =
                      [(P ++ "/" ++ n : String)] from rfl, List.mem_singleton] at hqh
                  rw [hqh]
                  exact ⟨FSEntry.dir n es2, List.mem_cons_self _ _, underSeg_self P n⟩
                · obtain ⟨x, hx, hu⟩ := hlabN q (List.mem_append_left _
                    (List.mem_append_left _ hqD))
                  exact ⟨x, List.mem_cons_of_mem _ hx, hu⟩
              · obtain ⟨x, hx, hu⟩ := hlabN q (List.mem_append_left _
                  (List.mem_append_right _ hqF))
                exact ⟨x, List.mem_cons_of_mem _ hx, hu⟩
            · obtain ⟨x, hx, hu⟩ := hlabN q (List.mem_append_right _ hqH)
              exact ⟨x, List.mem_cons_of_mem _ hx, hu⟩
        · obtain ⟨hnodE, hlabE⟩ := ihe P hve
          rw [expChild, expTree] at hnodE hlabE
          rw [expKids_cons_dir P n es2 es hh' hgg, allPathsList_append,
              allPathsList_append, allPathsList_cons]
          rw [expKids, allPathsList_append, allPathsList_append] at hnodupN hlabN hnotin
          refine ⟨?_, ?_⟩
          · rw [List.append_assoc, List.append_assoc, List.nodup_append]
            refine ⟨hnodE, ?_, ?_⟩
            · rw [← List.append_assoc]
              exact hnodupN
            · intro q hq hq2
              rw [← List.append_assoc] at hq2
              exact hnotin q (hlabE q hq) hq2
          · intro q hq
            rcases List.mem_append.mp hq with hq1 | hqH
            · rcases List.mem_append.mp hq1 with hq2 | hqF
              · rcases List.mem_append.mp hq2 with hqE | hqD
                · exact ⟨FSEntry.dir n es2, List.mem_cons_self _ _, hlabE q hqE⟩
                · obtain ⟨x, hx, hu⟩ := hlabN q (List.mem_append_left _
                    (List.mem_append_left _ hqD))
                  exact ⟨x, List.mem_cons_of_mem _ hx, hu⟩
              · obtain ⟨x, hx, hu⟩ := hlabN q (List.mem_append_left _
                  (List.mem_append_right _ hqF))
                exact ⟨x, List.mem_cons_of_mem _ hx, hu⟩
            · obtain ⟨x, hx, hu⟩ := hlabN q (List.mem_append_right _ hqH)
              exact ⟨x, List.mem_cons_of_mem _ hx, hu⟩

/-- C9: after `_build_file_tree` completes over a valid snapshot (well-formed
entry names, pairwise-distinct sibling names), exactly one node exists per
distinct filesystem path: the preorder list of all node paths of the built
tree has no duplicates, so no path is represented by two different nodes,
every child node sits in exactly one parent's children list, and the tree
(an inductive value) has no cycles. -/
theorem c9_one_node_per_path (rootPath : String) (entries : List FSEntry)
    (hv : validFS entries = true) :
    (allPaths (buildFileTree rootPath entries)).Nodup := by
  by_cases hg : infixB ".git".data rootPath.data = true
  · rw [buildFileTree_skip rootPath entries hg, allPaths_mk_some, allPathsList_nil]
    exact List.nodup_singleton _
  · have hg' : infixB ".git".data rootPath.data = false := by simpa using hg
    rw [buildFileTree_eq_expTree rootPath entries hg' hv, expTree, allPaths_mk_some]
    obtain ⟨hnodup, hlab⟩ := expKids_nodup_pair.2 entries rootPath hv
    rw [List.nodup_cons]
    refine ⟨?_, hnodup⟩
    intro hmem
    obtain ⟨x, _, hus⟩ := hlab _ hmem
    exact underSeg_ne rootPath x.name rootPath hus rfl

/-- Witness for C9 at a concrete snapshot: a workspace with a subdirectory
holding one file, a sibling file, a hidden directory and one more nested
level of directories. -/
theorem c9_one_node_per_path_witness :
    validFS [FSEntry.dir "src" [FSEntry.file "a.py" (some "x"),
               FSEntry.dir "deep" [FSEntry.file "c.js" (some "z")]],
             FSEntry.dir ".hid" [FSEntry.file "d.py" (some "w")],
             FSEntry.file "b.py" (some "y")] = true ∧
    (allPaths (buildFileTree "ws"
      [FSEntry.dir "src" [FSEntry.file "a.py" (some "x"),
         FSEntry.dir "deep" [FSEntry.file "c.js" (some "z")]],
       FSEntry.dir ".hid" [FSEntry.file "d.py" (some "w")],
       FSEntry.file "b.py" (some "y")])).Nodup :=
  ⟨by decide, c9_one_node_per_path "ws" _ (by decide)⟩

end EasyGithub
